import Mathlib

/-!
Verification of the Sasquatch universal builder (SASQUATCH_UNIVERSAL_BUILDER.py).

File contents are modelled as `List Char` (the bytes of a text file, one
`Char` per character).  Python's `str.split('\n')` / `'\n'.join` pair is
modelled by `splitNl` / `joinNl`, `str.replace` by `pyReplace`, and the one
regular-expression substitution of the script
(`re.sub(r'^\s*int\s+verbose\s*(=\s*0)?\s*;', 'extern int verbose;', …,
flags=re.MULTILINE)`) by an explicit deterministic matcher (`MSt`, `step`,
`run`) together with the leftmost, non-overlapping scan `subAux`.

Whitespace: Python's `\s` (and `str.strip` / `str.split()`) is modelled on
its ASCII range, space, tab, newline, carriage return, vertical tab and form
feed, which covers the source files the script patches.
-/

namespace Sasquatch

/-- A file's content: the list of its characters. -/
abbrev Content := List Char

/-- Python's whitespace test (`\s`, `str.strip`, `str.split()`), ASCII range. -/
def isPySpace (c : Char) : Bool :=
  c = ' ' || c = '\t' || c = '\n' || c = '\r' || c = '\x0b' || c = '\x0c'

/-- Python's `content.split('\n')`. -/
def splitNl : Content → List Content
  | [] => [[]]
  | c :: cs =>
    if c = '\n' then [] :: splitNl cs
    else
      match splitNl cs with
      | [] => [[c]]
      | l :: ls => (c :: l) :: ls

/-- Python's `'\n'.join(lines)`. -/
def joinNl : List Content → Content
  | [] => []
  | [l] => l
  | l :: ls => l ++ '\n' :: joinNl ls

theorem splitNl_ne_nil (s : Content) : splitNl s ≠ [] := by
  cases s with
  | nil => simp [splitNl]
  | cons c cs =>
    simp only [splitNl]
    split
    · simp
    · split <;> simp

theorem joinNl_cons_cons (a b : Content) (ls : List Content) :
    joinNl (a :: b :: ls) = a ++ '\n' :: joinNl (b :: ls) := rfl

theorem joinNl_cons (a : Content) (ls : List Content) (h : ls ≠ []) :
    joinNl (a :: ls) = a ++ '\n' :: joinNl ls := by
  cases ls with
  | nil => exact absurd rfl h
  | cons b ls => rfl

theorem joinNl_splitNl (s : Content) : joinNl (splitNl s) = s := by
  induction s with
  | nil => rfl
  | cons c cs ih =>
    simp only [splitNl]
    split
    · rename_i hc
      rw [joinNl_cons _ _ (splitNl_ne_nil cs), ih, hc]
      rfl
    · cases h : splitNl cs with
      | nil => exact absurd h (splitNl_ne_nil cs)
      | cons l ls =>
        rw [h] at ih
        cases ls with
        | nil => simpa [joinNl] using ih
        | cons b ls2 =>
          simp only [joinNl_cons_cons] at ih ⊢
          simp [ih]

theorem splitNl_nlfree {a : Content} (ha : '\n' ∉ a) : splitNl a = [a] := by
  induction a with
  | nil => rfl
  | cons c cs ih =>
    have hc : c ≠ '\n' := fun h => ha (h ▸ List.mem_cons_self c cs)
    have hcs : '\n' ∉ cs := fun h => ha (List.mem_cons_of_mem c h)
    simp only [splitNl, if_neg hc, ih hcs]

theorem splitNl_append_nl (x y : Content) (hx : '\n' ∉ x) :
    splitNl (x ++ '\n' :: y) = x :: splitNl y := by
  induction x with
  | nil => simp [splitNl]
  | cons c cs ih =>
    have hc : c ≠ '\n' := fun h => hx (h ▸ List.mem_cons_self c cs)
    have hcs : '\n' ∉ cs := fun h => hx (List.mem_cons_of_mem c h)
    rw [List.cons_append]
    simp only [splitNl, if_neg hc]
    rw [ih hcs]

theorem nl_not_mem_of_mem_splitNl {s : Content} {l : Content}
    (h : l ∈ splitNl s) : '\n' ∉ l := by
  induction s generalizing l with
  | nil =>
    simp [splitNl] at h
    simp [h]
  | cons c cs ih =>
    simp only [splitNl] at h
    split at h
    · rcases List.mem_cons.1 h with h1 | h2
      · simp [h1]
      · exact ih h2
    · rename_i hc
      cases hsp : splitNl cs with
      | nil => exact absurd hsp (splitNl_ne_nil cs)
      | cons a ls =>
        rw [hsp] at h
        rcases List.mem_cons.1 h with h1 | h2
        · subst h1
          intro hm
          rcases List.mem_cons.1 hm with h3 | h4
          · exact hc h3.symm
          · exact ih (hsp ▸ List.mem_cons_self a ls) h4
        · exact ih (hsp ▸ List.mem_cons_of_mem a h2)

theorem splitNl_joinNl (ls : List Content) (hne : ls ≠ [])
    (hfree : ∀ l ∈ ls, '\n' ∉ l) : splitNl (joinNl ls) = ls := by
  induction ls with
  | nil => exact absurd rfl hne
  | cons a ls ih =>
    cases ls with
    | nil => exact splitNl_nlfree (hfree a (List.mem_cons_self a []))
    | cons b ls2 =>
      have ha : '\n' ∉ a := hfree a (List.mem_cons_self a _)
      rw [joinNl_cons_cons, splitNl_append_nl _ _ ha,
        ih (by simp) (fun l hl => hfree l (List.mem_cons_of_mem a hl))]

theorem infix_joinNl_of_mem {l : Content} {ls : List Content}
    (h : l ∈ ls) : l <:+: joinNl ls := by
  induction ls with
  | nil => simp at h
  | cons a ls ih =>
    rcases List.mem_cons.1 h with h1 | h2
    · subst h1
      cases ls with
      | nil => exact List.infix_refl l
      | cons b ls2 =>
        rw [joinNl_cons_cons]
        exact (List.prefix_append l ('\n' :: joinNl (b :: ls2))).isInfix
    · cases ls with
      | nil => simp at h2
      | cons b ls2 =>
        rw [joinNl_cons_cons]
        exact (ih h2).trans
          (((List.suffix_cons '\n' (joinNl (b :: ls2))).trans
            (List.suffix_append a ('\n' :: joinNl (b :: ls2)))).isInfix)

theorem prefix_of_append_sep {q x y : Content} {d : Char} (hd : d ∉ q)
    (h : q <+: x ++ d :: y) : q <+: x := by
  induction x generalizing q with
  | nil =>
    cases q with
    | nil => exact List.nil_prefix
    | cons e q' =>
      rcases List.cons_prefix_cons.1 h with ⟨he, _⟩
      subst he
      exact absurd (List.mem_cons_self e q') hd
  | cons c cs ih =>
    cases q with
    | nil => exact List.nil_prefix
    | cons e q' =>
      rw [List.cons_append] at h
      rcases List.cons_prefix_cons.1 h with ⟨he, h'⟩
      have hd' : d ∉ q' := fun hm => hd (List.mem_cons_of_mem e hm)
      exact List.cons_prefix_cons.2 ⟨he, ih hd' h'⟩

theorem prefix_append_sep_iff {q x y : Content} {d : Char} (hd : d ∉ q) :
    q <+: x ++ d :: y ↔ q <+: x :=
  ⟨prefix_of_append_sep hd, fun h => h.trans (List.prefix_append x (d :: y))⟩

theorem infix_append_sep {q x y : Content} {d : Char} (hq : q ≠ []) (hd : d ∉ q)
    (h : q <:+: x ++ d :: y) : q <:+: x ∨ q <:+: y := by
  induction x with
  | nil =>
    rw [List.nil_append] at h
    rcases List.infix_cons_iff.1 h with h1 | h2
    · cases q with
      | nil => exact absurd rfl hq
      | cons e q' =>
        rcases List.cons_prefix_cons.1 h1 with ⟨he, _⟩
        subst he
        exact absurd (List.mem_cons_self e q') hd
    · exact Or.inr h2
  | cons c cs ih =>
    rw [List.cons_append] at h
    rcases List.infix_cons_iff.1 h with h1 | h2
    · exact Or.inl (prefix_of_append_sep hd h1).isInfix
    · rcases ih h2 with h3 | h4
      · exact Or.inl (h3.trans (List.suffix_cons c cs).isInfix)
      · exact Or.inr h4

theorem not_infix_append_sep {q x y : Content} {d : Char} (hq : q ≠ []) (hd : d ∉ q)
    (hx : ¬ q <:+: x) (hy : ¬ q <:+: y) : ¬ q <:+: x ++ d :: y := fun h =>
  (infix_append_sep hq hd h).elim hx hy

/-! ### Python's `str.replace`

`pyReplaceF` is fuelled so that it is structurally recursive and hence
computable by the kernel; `pyReplace` saturates the fuel.  It scans left to
right, replaces each non-overlapping occurrence of `p` by `r` and continues
scanning after the replacement, exactly as CPython's `str.replace` does. -/

def pyReplaceF (p r : Content) : Nat → Content → Content
  | 0, s => s
  | _ + 1, [] => []
  | n + 1, c :: cs =>
    if p <+: c :: cs then r ++ pyReplaceF p r n (List.drop p.length (c :: cs))
    else c :: pyReplaceF p r n cs

/-- Python's `s.replace(p, r)` for a non-empty pattern `p`. -/
def pyReplace (p r s : Content) : Content := pyReplaceF p r s.length s

theorem pyReplaceF_fuel {p : Content} (r : Content) (hp : p ≠ []) :
    ∀ n m s, s.length ≤ n → s.length ≤ m → pyReplaceF p r n s = pyReplaceF p r m s := by
  intro n
  induction n with
  | zero =>
    intro m s hn _
    rw [List.length_eq_zero.1 (Nat.le_zero.1 hn)]
    cases m <;> rfl
  | succ n ih =>
    intro m s hn hm
    cases s with
    | nil => cases m <;> rfl
    | cons c cs =>
      cases m with
      | zero => exact absurd hm (by simp)
      | succ m' =>
        have hp1 : 1 ≤ p.length := by
          cases p with
          | nil => exact absurd rfl hp
          | cons a as => simp
        simp only [pyReplaceF]
        split
        · congr 1
          apply ih
          · rw [List.length_drop]
            simp only [List.length_cons] at hn ⊢
            omega
          · rw [List.length_drop]
            simp only [List.length_cons] at hm ⊢
            omega
        · congr 1
          apply ih
          · simp only [List.length_cons] at hn
            omega
          · simp only [List.length_cons] at hm
            omega

theorem pyReplace_nil (p r : Content) : pyReplace p r [] = [] := rfl

theorem pyReplace_cons {p : Content} (r : Content) (hp : p ≠ []) (c : Char) (cs : Content) :
    pyReplace p r (c :: cs) =
      if p <+: c :: cs then r ++ pyReplace p r (List.drop p.length (c :: cs))
      else c :: pyReplace p r cs := by
  have hp1 : 1 ≤ p.length := by
    cases p with
    | nil => exact absurd rfl hp
    | cons a as => simp
  show pyReplaceF p r (cs.length + 1) (c :: cs) = _
  simp only [pyReplaceF]
  split
  · congr 1
    apply pyReplaceF_fuel r hp
    · rw [List.length_drop]
      simp only [List.length_cons]
      omega
    · exact le_rfl
  · rfl

theorem pyReplace_no_occurrence {p r s : Content} (hp : p ≠ []) (h : ¬ p <:+: s) :
    pyReplace p r s = s := by
  induction s with
  | nil => rfl
  | cons c cs ih =>
    rw [pyReplace_cons r hp]
    have hpre : ¬ p <+: c :: cs := fun hb => h hb.isInfix
    rw [if_neg hpre, ih (fun hi => h (List.infix_cons_iff.2 (Or.inr hi)))]

theorem pyReplace_append_sep {p : Content} (r : Content) {d : Char} (hp : p ≠ [])
    (hd : d ∉ p) (x y : Content) :
    pyReplace p r (x ++ d :: y) = pyReplace p r x ++ d :: pyReplace p r y := by
  have hd_head : ∀ z : Content, ¬ p <+: d :: z := by
    intro z hb
    cases p with
    | nil => exact hp rfl
    | cons e p' =>
      rcases List.cons_prefix_cons.1 hb with ⟨he, _⟩
      subst he
      exact hd (List.mem_cons_self e p')
  suffices H : ∀ n x, x.length ≤ n →
      pyReplace p r (x ++ d :: y) = pyReplace p r x ++ d :: pyReplace p r y from
    H x.length x le_rfl
  intro n
  induction n with
  | zero =>
    intro x hx
    rw [List.length_eq_zero.1 (Nat.le_zero.1 hx)]
    rw [List.nil_append, pyReplace_cons r hp, if_neg (hd_head y)]
    rfl
  | succ n ih =>
    intro x hx
    cases x with
    | nil =>
      rw [List.nil_append, pyReplace_cons r hp, if_neg (hd_head y)]
      rfl
    | cons c cs =>
      have hp1 : 1 ≤ p.length := by
        cases p with
        | nil => exact absurd rfl hp
        | cons a as => simp
      rw [List.cons_append, pyReplace_cons r hp, pyReplace_cons r hp c cs]
      by_cases hb : p <+: c :: cs
      · have hb1 : p <+: c :: (cs ++ d :: y) := by
          rw [show c :: (cs ++ d :: y) = (c :: cs) ++ d :: y from rfl]
          exact hb.trans (List.prefix_append (c :: cs) (d :: y))
        rw [if_pos hb1, if_pos hb]
        have hlen : p.length ≤ (c :: cs).length := hb.length_le
        rw [show c :: (cs ++ d :: y) = (c :: cs) ++ d :: y from rfl,
          List.drop_append_of_le_length hlen]
        rw [ih (List.drop p.length (c :: cs)) (by
          rw [List.length_drop]
          simp only [List.length_cons] at hx ⊢
          omega)]
        simp [List.append_assoc]
      · have hb1 : ¬ p <+: c :: (cs ++ d :: y) := by
          intro hq
          apply hb
          rw [show c :: (cs ++ d :: y) = (c :: cs) ++ d :: y from rfl] at hq
          exact prefix_of_append_sep hd hq
        rw [if_neg hb1, if_neg hb]
        rw [ih cs (by simp only [List.length_cons] at hx; omega)]
        rfl

theorem pyReplace_self {p : Content} (r : Content) (hp : p ≠ []) :
    pyReplace p r p = r := by
  cases p with
  | nil => exact absurd rfl hp
  | cons c cs =>
    rw [pyReplace_cons r hp]
    rw [if_pos (List.prefix_refl (c :: cs))]
    rw [List.drop_length]
    simp [pyReplace_nil]

/-- Python's `' '.join` on a token list (used to build structured recipe lines). -/
def joinSp : List Content → Content
  | [] => []
  | [f] => f
  | f :: fs => f ++ ' ' :: joinSp fs

theorem joinSp_cons (f : Content) (fs : List Content) (h : fs ≠ []) :
    joinSp (f :: fs) = f ++ ' ' :: joinSp fs := by
  cases fs with
  | nil => exact absurd rfl h
  | cons g gs => rfl

theorem pyReplace_joinSp {p : Content} (hp : p ≠ []) (hsp : ' ' ∉ p)
    (flags : List Content)
    (hf : ∀ f ∈ flags, ' ' ∉ f ∧ (p <:+: f → f = p)) :
    pyReplace p [] (joinSp flags) =
      joinSp (flags.map fun f => if f = p then [] else f) := by
  induction flags with
  | nil => rfl
  | cons f fs ih =>
    cases fs with
    | nil =>
      show pyReplace p [] f = joinSp [if f = p then [] else f]
      by_cases hfp : f = p
      · rw [if_pos hfp, hfp, pyReplace_self [] hp]
        rfl
      · rw [if_neg hfp]
        have hni : ¬ p <:+: f := fun hi => hfp ((hf f (List.mem_cons_self f [])).2 hi)
        rw [pyReplace_no_occurrence hp hni]
        rfl
    | cons g gs =>
      have hmap : List.map (fun x => if x = p then [] else x) (f :: g :: gs)
          = (if f = p then [] else f) :: List.map (fun x => if x = p then [] else x) (g :: gs) :=
        rfl
      rw [joinSp_cons f (g :: gs) (by simp),
        pyReplace_append_sep [] hp hsp f (joinSp (g :: gs)),
        ih (fun x hx => hf x (List.mem_cons_of_mem f hx)), hmap,
        joinSp_cons _ _ (by simp)]
      congr 1
      by_cases hfp : f = p
      · rw [if_pos hfp, hfp, pyReplace_self [] hp]
      · rw [if_neg hfp]
        have hni : ¬ p <:+: f := fun hi => hfp ((hf f (List.mem_cons_self f _)).2 hi)
        rw [pyReplace_no_occurrence hp hni]

theorem pyReplace_joinNl {p : Content} (r : Content) (hp : p ≠ []) (hnl : '\n' ∉ p)
    (ls : List Content) :
    pyReplace p r (joinNl ls) = joinNl (ls.map (pyReplace p r)) := by
  induction ls with
  | nil => rfl
  | cons l fs ih =>
    cases fs with
    | nil => rfl
    | cons g gs =>
      have hmap : List.map (pyReplace p r) (l :: g :: gs)
          = pyReplace p r l :: List.map (pyReplace p r) (g :: gs) := rfl
      rw [joinNl_cons_cons, pyReplace_append_sep r hp hnl l (joinNl (g :: gs)), ih, hmap,
        joinNl_cons _ _ (by simp)]

/-! ### The `verbose` substitution

`re.sub(r'^\s*int\s+verbose\s*(=\s*0)?\s*;', 'extern int verbose;', content,
flags=re.MULTILINE)` from `fix_error_header`.  Because every literal letter of
the pattern is a non-whitespace character, the greedy quantifiers are
deterministic: each `\s*`/`\s+` simply consumes the maximal whitespace run,
and the optional group `(=\s*0)?` is taken exactly when the next
non-whitespace character is `=`.  The matcher below is that determinisation,
as a character-at-a-time state machine; `subAux` is `re.sub`'s leftmost,
non-overlapping scan, where the boolean argument records whether the current
position is at the start of the string or just after a newline (the positions
`^` matches with `re.MULTILINE`). -/

inductive MSt where
  | wsI | chN | chT | wsV0 | wsV | chE1 | chR | chB | chO | chS | chE2
  | wsOpt | ws0 | wsSemi

inductive StepRes where
  | fail
  | accept
  | next (st : MSt)

def step : MSt → Char → StepRes
  | .wsI, c => if isPySpace c then .next .wsI else if c = 'i' then .next .chN else .fail
  | .chN, c => if c = 'n' then .next .chT else .fail
  | .chT, c => if c = 't' then .next .wsV0 else .fail
  | .wsV0, c => if isPySpace c then .next .wsV else .fail
  | .wsV, c => if isPySpace c then .next .wsV else if c = 'v' then .next .chE1 else .fail
  | .chE1, c => if c = 'e' then .next .chR else .fail
  | .chR, c => if c = 'r' then .next .chB else .fail
  | .chB, c => if c = 'b' then .next .chO else .fail
  | .chO, c => if c = 'o' then .next .chS else .fail
  | .chS, c => if c = 's' then .next .chE2 else .fail
  | .chE2, c => if c = 'e' then .next .wsOpt else .fail
  | .wsOpt, c =>
    if isPySpace c then .next .wsOpt
    else if c = '=' then .next .ws0
    else if c = ';' then .accept
    else .fail
  | .ws0, c => if isPySpace c then .next .ws0 else if c = '0' then .next .wsSemi else .fail
  | .wsSemi, c => if isPySpace c then .next .wsSemi else if c = ';' then .accept else .fail

/-- Run the matcher; `some t` means a match that consumed everything before
the suffix `t` (the final `;` included). -/
def run (st : MSt) : Content → Option Content
  | [] => none
  | c :: cs =>
    match step st c with
    | .fail => none
    | .accept => some cs
    | .next st2 => run st2 cs

/-- A match of the `verbose`-definition pattern at the current position. -/
def matchVerbose (s : Content) : Option Content := run .wsI s

/-- The replacement text of the substitution. -/
def externRepl : Content := ("extern int verbose;" : String).data

theorem run_cons (st : MSt) (c : Char) (cs : Content) :
    run st (c :: cs) =
      match step st c with
      | .fail => none
      | .accept => some cs
      | .next st2 => run st2 cs := rfl

theorem run_some_length {s : Content} :
    ∀ {st : MSt} {t : Content}, run st s = some t → t.length < s.length := by
  induction s with
  | nil => intro st t h; simp [run] at h
  | cons c cs ih =>
    intro st t h
    rw [run_cons] at h
    cases hst : step st c <;> rw [hst] at h
    · simp at h
    · rw [Option.some_inj] at h
      subst h
      simp
    · exact (ih h).trans (by simp)

/-- `re.sub`'s scan, fuelled so that it is structurally recursive.  The
boolean is true exactly at the positions `^` matches under `re.MULTILINE`;
after a replacement it is false because a match always ends in `;`. -/
def subAux : Nat → Bool → Content → Content
  | 0, _, s => s
  | _ + 1, _, [] => []
  | n + 1, bol, c :: cs =>
    if bol then
      match matchVerbose (c :: cs) with
      | some rest => externRepl ++ subAux n false rest
      | none => c :: subAux n (c == '\n') cs
    else c :: subAux n (c == '\n') cs

/-- The `re.sub` of `fix_error_header`, fuel saturated. -/
def subVerbose (s : Content) : Content := subAux s.length true s

/-- Is there a `^`-anchored match anywhere in `s` (the boolean again saying
whether the first position is one `^` matches)? -/
def hasMatch : Bool → Content → Bool
  | _, [] => false
  | bol, c :: cs => (bol && (matchVerbose (c :: cs)).isSome) || hasMatch (c == '\n') cs

theorem subAux_succ_cons_false (n : Nat) (c : Char) (cs : Content) :
    subAux (n + 1) false (c :: cs) = c :: subAux n (c == '\n') cs := rfl

theorem subAux_succ_cons_true (n : Nat) (c : Char) (cs : Content) :
    subAux (n + 1) true (c :: cs) =
      match matchVerbose (c :: cs) with
      | some rest => externRepl ++ subAux n false rest
      | none => c :: subAux n (c == '\n') cs := rfl

theorem subAux_succ_cons_true_some {c : Char} {cs rest : Content} (n : Nat)
    (hmv : matchVerbose (c :: cs) = some rest) :
    subAux (n + 1) true (c :: cs) = externRepl ++ subAux n false rest := by
  rw [subAux_succ_cons_true, hmv]

theorem subAux_succ_cons_true_none {c : Char} {cs : Content} (n : Nat)
    (hmv : matchVerbose (c :: cs) = none) :
    subAux (n + 1) true (c :: cs) = c :: subAux n (c == '\n') cs := by
  rw [subAux_succ_cons_true, hmv]

theorem hasMatch_cons (bol : Bool) (c : Char) (cs : Content) :
    hasMatch bol (c :: cs) =
      ((bol && (matchVerbose (c :: cs)).isSome) || hasMatch (c == '\n') cs) := rfl

theorem subAux_fuel :
    ∀ n m (bol : Bool) (s : Content), s.length ≤ n → s.length ≤ m →
      subAux n bol s = subAux m bol s := by
  intro n
  induction n with
  | zero =>
    intro m bol s hn _
    rw [List.length_eq_zero.1 (Nat.le_zero.1 hn)]
    cases m <;> rfl
  | succ n ih =>
    intro m bol s hn hm
    cases s with
    | nil => cases m <;> rfl
    | cons c cs =>
      cases m with
      | zero => exact absurd hm (by simp)
      | succ m2 =>
        have h1 : cs.length ≤ n := by simp only [List.length_cons] at hn; omega
        have h2 : cs.length ≤ m2 := by simp only [List.length_cons] at hm; omega
        cases bol with
        | false =>
          rw [subAux_succ_cons_false, subAux_succ_cons_false,
            ih m2 (c == '\n') cs h1 h2]
        | true =>
          cases hmv : matchVerbose (c :: cs) with
          | some rest =>
            have hlt : rest.length < cs.length + 1 := by
              have h3 := run_some_length hmv
              simpa using h3
            rw [subAux_succ_cons_true_some n hmv, subAux_succ_cons_true_some m2 hmv,
              ih m2 false rest (by omega) (by omega)]
          | none =>
            rw [subAux_succ_cons_true_none n hmv, subAux_succ_cons_true_none m2 hmv,
              ih m2 (c == '\n') cs h1 h2]

theorem run_externRepl_append (st : MSt) (t : Content) :
    run st (externRepl ++ t) = none := by
  cases st <;> rfl

theorem hasMatch_externRepl_append (t : Content) :
    hasMatch true (externRepl ++ t) = hasMatch false t := rfl

/-- If the matcher fails on `s` from state `st`, it also fails on the scan's
output for `s`: the output agrees with `s` until the first replacement, and
every matcher state fails within the replacement text. -/
theorem run_subAux_none :
    ∀ m (s : Content) (st : MSt) (bol : Bool), s.length ≤ m → run st s = none →
      run st (subAux m bol s) = none := by
  intro m
  induction m with
  | zero =>
    intro s st bol hm _
    rw [List.length_eq_zero.1 (Nat.le_zero.1 hm)]
    rfl
  | succ m ih =>
    intro s st bol hm h
    cases s with
    | nil => rfl
    | cons c cs =>
      have hcs : cs.length ≤ m := by simp only [List.length_cons] at hm; omega
      have hcopy : run st (c :: subAux m (c == '\n') cs) = none := by
        rw [run_cons] at h ⊢
        cases hst : step st c <;> rw [hst] at h
        case accept => exact Option.noConfusion h
        case next st2 => exact ih cs st2 (c == '\n') hcs h
      cases bol with
      | false =>
        rw [subAux_succ_cons_false]
        exact hcopy
      | true =>
        cases hmv : matchVerbose (c :: cs) with
        | some rest =>
          rw [subAux_succ_cons_true_some m hmv]
          exact run_externRepl_append st _
        | none =>
          rw [subAux_succ_cons_true_none m hmv]
          exact hcopy

/-- The scan's output has no `^`-anchored match left: the substitution
removes every match and the replacement text starts none. -/
theorem hasMatch_subAux :
    ∀ m (s : Content) (bol : Bool), s.length ≤ m →
      hasMatch bol (subAux m bol s) = false := by
  intro m
  induction m with
  | zero =>
    intro s bol hm
    rw [List.length_eq_zero.1 (Nat.le_zero.1 hm)]
    rfl
  | succ m ih =>
    intro s bol hm
    cases s with
    | nil => rfl
    | cons c cs =>
      have hcs : cs.length ≤ m := by simp only [List.length_cons] at hm; omega
      cases bol with
      | false =>
        rw [subAux_succ_cons_false, hasMatch_cons]
        simp only [Bool.false_and, Bool.false_or]
        exact ih cs (c == '\n') hcs
      | true =>
        cases hmv : matchVerbose (c :: cs) with
        | some rest =>
          have hlt : rest.length ≤ m := by
            have h3 := run_some_length hmv
            simp only [List.length_cons] at hm h3
            omega
          rw [subAux_succ_cons_true_some m hmv, hasMatch_externRepl_append]
          exact ih rest false hlt
        | none =>
          rw [subAux_succ_cons_true_none m hmv, hasMatch_cons]
          have h1 : matchVerbose (c :: subAux m (c == '\n') cs) = none := by
            have hmv2 : run .wsI (c :: cs) = none := hmv
            show run .wsI (c :: subAux m (c == '\n') cs) = none
            rw [run_cons] at hmv2 ⊢
            cases hst : step .wsI c <;> rw [hst] at hmv2
            case accept => exact Option.noConfusion hmv2
            case next st2 => exact run_subAux_none m cs st2 (c == '\n') hcs hmv2
          rw [h1]
          simp only [Option.isSome_none, Bool.and_false, Bool.false_or]
          exact ih cs (c == '\n') hcs

/-- On match-free input the scan is the identity. -/
theorem subAux_of_not_hasMatch :
    ∀ m (s : Content) (bol : Bool), s.length ≤ m → hasMatch bol s = false →
      subAux m bol s = s := by
  intro m
  induction m with
  | zero =>
    intro s bol hm _
    rw [List.length_eq_zero.1 (Nat.le_zero.1 hm)]
    rfl
  | succ m ih =>
    intro s bol hm h
    cases s with
    | nil => rfl
    | cons c cs =>
      have hcs : cs.length ≤ m := by simp only [List.length_cons] at hm; omega
      rw [hasMatch_cons, Bool.or_eq_false_iff] at h
      cases bol with
      | false => rw [subAux_succ_cons_false, ih cs (c == '\n') hcs h.2]
      | true =>
        have hnone : matchVerbose (c :: cs) = none := by
          rcases h with ⟨h1, _⟩
          rw [Bool.true_and] at h1
          exact Option.not_isSome_iff_eq_none.1 (by rw [h1]; simp)
        rw [subAux_succ_cons_true_none m hnone, ih cs (c == '\n') hcs h.2]

/-- The substitution of `fix_error_header` is idempotent on every content. -/
theorem subVerbose_idem (s : Content) : subVerbose (subVerbose s) = subVerbose s :=
  subAux_of_not_hasMatch _ _ _ le_rfl (hasMatch_subAux s.length s true le_rfl)

/-- Where the input had a `^`-anchored match, the output contains the
replacement text `extern int verbose;`. -/
theorem externRepl_infix_subAux :
    ∀ m (s : Content) (bol : Bool), s.length ≤ m → hasMatch bol s = true →
      externRepl <:+: subAux m bol s := by
  intro m
  induction m with
  | zero =>
    intro s bol hm h
    rw [List.length_eq_zero.1 (Nat.le_zero.1 hm)] at h
    simp [hasMatch] at h
  | succ m ih =>
    intro s bol hm h
    cases s with
    | nil => simp [hasMatch] at h
    | cons c cs =>
      have hcs : cs.length ≤ m := by simp only [List.length_cons] at hm; omega
      cases bol with
      | false =>
        rw [hasMatch_cons, Bool.false_and, Bool.false_or] at h
        rw [subAux_succ_cons_false]
        exact (ih cs (c == '\n') hcs h).trans
          (List.suffix_cons c (subAux m (c == '\n') cs)).isInfix
      | true =>
        cases hmv : matchVerbose (c :: cs) with
        | some rest =>
          rw [subAux_succ_cons_true_some m hmv]
          exact (List.prefix_append externRepl (subAux m false rest)).isInfix
        | none =>
          rw [hasMatch_cons, hmv] at h
          simp only [Option.isSome_none, Bool.and_false, Bool.false_or] at h
          rw [subAux_succ_cons_true_none m hmv]
          exact (ih cs (c == '\n') hcs h).trans
            (List.suffix_cons c (subAux m (c == '\n') cs)).isInfix


/-! ### Tokens of a line and occurrence counts -/

/-- No whitespace character occurs in `f` (a single flag of a recipe line). -/
def wsFree (f : Content) : Prop := ∀ c ∈ f, isPySpace c = false

instance (f : Content) : Decidable (wsFree f) :=
  decidable_of_iff (∀ c ∈ f, isPySpace c = false) (by rw [wsFree])

/-- Split at every whitespace character (keeping empty pieces). -/
def splitSp : Content → List Content
  | [] => [[]]
  | c :: cs =>
    if isPySpace c then [] :: splitSp cs
    else
      match splitSp cs with
      | [] => [[c]]
      | l :: ls => (c :: l) :: ls

/-- Python's `line.split()`: the whitespace-separated tokens of a line. -/
def tokensOf (s : Content) : List Content := (splitSp s).filter (fun t => !t.isEmpty)

theorem splitSp_wsFree {a : Content} (ha : wsFree a) : splitSp a = [a] := by
  induction a with
  | nil => rfl
  | cons c cs ih =>
    have hc : isPySpace c = false := ha c (List.mem_cons_self c cs)
    have hcs : wsFree cs := fun d hd => ha d (List.mem_cons_of_mem c hd)
    simp only [splitSp, hc, Bool.false_eq_true, if_false, ih hcs]

theorem splitSp_append_sp (x y : Content) {d : Char} (hx : wsFree x)
    (hd : isPySpace d = true) : splitSp (x ++ d :: y) = x :: splitSp y := by
  induction x with
  | nil => simp [splitSp, hd]
  | cons c cs ih =>
    have hc : isPySpace c = false := hx c (List.mem_cons_self c cs)
    have hcs : wsFree cs := fun e he => hx e (List.mem_cons_of_mem c he)
    rw [List.cons_append]
    simp only [splitSp, hc, Bool.false_eq_true, if_false]
    rw [ih hcs]

theorem tokensOf_wsFree {a : Content} (ha : wsFree a) :
    tokensOf a = if a = [] then [] else [a] := by
  rw [tokensOf, splitSp_wsFree ha]
  by_cases h : a = []
  · subst h
    rfl
  · rw [if_neg h]
    simp [List.filter_cons, List.isEmpty_iff, h]

theorem tokensOf_joinSp (flags : List Content) (h : ∀ f ∈ flags, wsFree f) :
    tokensOf (joinSp flags) = flags.filter (fun f => !f.isEmpty) := by
  induction flags with
  | nil => rfl
  | cons f fs ih =>
    cases fs with
    | nil =>
      show tokensOf f = List.filter (fun f => !f.isEmpty) [f]
      rw [tokensOf_wsFree (h f (List.mem_cons_self f []))]
      by_cases hf : f = []
      · subst hf
        rfl
      · rw [if_neg hf]
        simp [List.filter_cons, List.isEmpty_iff, hf]
    | cons g gs =>
      rw [joinSp_cons f (g :: gs) (by simp), tokensOf, splitSp_append_sp _ _
        (h f (List.mem_cons_self f _)) (by simp [isPySpace]), List.filter_cons]
      rw [show List.filter (fun t => !t.isEmpty) (splitSp (joinSp (g :: gs)))
          = tokensOf (joinSp (g :: gs)) from rfl,
        ih (fun x hx => h x (List.mem_cons_of_mem f hx))]
      simp [List.filter_cons]

theorem wsFree_of_sp_not_mem {f : Content} (h : wsFree f) : ' ' ∉ f := by
  intro hm
  have := h ' ' hm
  simp [isPySpace] at this

/-- Count the positions of `s` at which `p` begins (Python's occurrence count
for the patterns used here, which cannot overlap themselves). -/
def countOcc (p : Content) : Content → Nat
  | [] => 0
  | c :: cs => (if p <+: c :: cs then 1 else 0) + countOcc p cs

theorem countOcc_eq_zero_of_absent {p s : Content} (h : ¬ p <:+: s) :
    countOcc p s = 0 := by
  induction s with
  | nil => rfl
  | cons c cs ih =>
    show (if p <+: c :: cs then 1 else 0) + countOcc p cs = 0
    rw [if_neg (fun hb => h hb.isInfix),
      ih (fun hi => h (List.infix_cons_iff.2 (Or.inr hi)))]

theorem countOcc_append_sep (p : Content) {d : Char} (hp : p ≠ []) (hd : d ∉ p)
    (x y : Content) : countOcc p (x ++ d :: y) = countOcc p x + countOcc p y := by
  induction x with
  | nil =>
    show (if p <+: d :: y then 1 else 0) + countOcc p y = 0 + countOcc p y
    rw [if_neg]
    intro hb
    cases p with
    | nil => exact hp rfl
    | cons e p2 =>
      rcases List.cons_prefix_cons.1 hb with ⟨he, _⟩
      subst he
      exact hd (List.mem_cons_self e p2)
  | cons c cs ih =>
    rw [List.cons_append]
    show (if p <+: c :: (cs ++ d :: y) then 1 else 0) + countOcc p (cs ++ d :: y)
      = (if p <+: c :: cs then 1 else 0) + countOcc p cs + countOcc p y
    rw [show c :: (cs ++ d :: y) = (c :: cs) ++ d :: y from rfl]
    rw [if_congr (prefix_append_sep_iff hd) rfl rfl, ih]
    omega

theorem countOcc_joinNl {p : Content} (hp : p ≠ []) (hnl : '\n' ∉ p)
    (ls : List Content) : countOcc p (joinNl ls) = (ls.map (countOcc p)).sum := by
  induction ls with
  | nil => rfl
  | cons l fs ih =>
    cases fs with
    | nil => simp [joinNl]
    | cons g gs =>
      rw [joinNl_cons_cons, countOcc_append_sep p hp hnl l (joinNl (g :: gs)), ih]
      rfl

/-! ### The patch rules of `apply_universal_fixes`

Content-level transformations, one per rule, translated from
`SASQUATCH_UNIVERSAL_BUILDER.py`; then the tree-level functions named after
the script's functions.  A file that does not exist is `none` and is left
untouched, as the script's `os.path.exists` guards do. -/

/-- The definition line `fix_error_header` inserts into `unsquashfs.c`. -/
def defLine : Content := ("int verbose = 0;" : String).data

/-- The comment line inserted just before `defLine`. -/
def cmtLine : Content := ("/* Global verbose variable definition */" : String).data

/-- `"#include"`, the keyword looked for by the insertion point search. -/
def includeKw : Content := ("#include" : String).data

/-- The four-line compatibility guard of `fix_fnm_extmatch`. -/
def fnmGuard : Content := ("#ifndef FNM_EXTMATCH\n#define FNM_EXTMATCH 0\n#endif\n\n" : String).data

/-- The first line of the guard: the string `startswith` tests for. -/
def fnmHead : Content := ("#ifndef FNM_EXTMATCH" : String).data

def fnmL2 : Content := ("#define FNM_EXTMATCH 0" : String).data

def fnmL3 : Content := ("#endif" : String).data

/-- The marker `disable_xz_wrapper` overwrites both codec files with. -/
def xzMarker : Content := ("/* XZ support disabled */\n" : String).data

def werrorFlag : Content := ("-Werror" : String).data

def dxzFlag : Content := ("-DXZ_SUPPORT" : String).data

def cflagsKw : Content := ("CFLAGS" : String).data

def libsKw : Content := ("LIBS +=" : String).data

def lzmaDir : Content := ("./LZMA" : String).data

def llzmaFlag : Content := ("-llzma" : String).data

/-- The replacement `CFLAGS` line (an f-string of the profile's install root). -/
def cflagsLine (pfx : Content) : Content :=
  ("CFLAGS := -g -O2 -I" : String).data ++ pfx ++
    ("/include -I. -I./LZMA/lzma465/C -I./LZMA/lzmalt -I./LZMA/lzmadaptive/C/7zip/Compress/LZMA_Lib" : String).data

/-- The replacement `LIBS` line (an f-string of the profile's install root). -/
def libsLine (pfx : Content) : Content :=
  ("LIBS += -lz -lm -L" : String).data ++ pfx ++
    ("/lib -llzo2 -llzma -L./LZMA/lzmadaptive/C/7zip/Compress/LZMA_Lib -llzmalib" : String).data

/-- The `CFLAGS` pass of `fix_makefile`, on one line. -/
def cfStep (pfx l : Content) : Content :=
  if cflagsKw <+: l ∧ lzmaDir <:+: l then cflagsLine pfx else l

/-- The `LIBS` pass of `fix_makefile`, on one line. -/
def libsStep (pfx l : Content) : Content :=
  if libsKw <+: l ∧ llzmaFlag <:+: l then libsLine pfx else l

/-- The `-DXZ_SUPPORT` pass of `fix_makefile`, on one line. -/
def xzStep (l : Content) : Content :=
  if dxzFlag <:+: l then pyReplace dxzFlag [] l else l

/-- `fix_makefile`'s rewrite of the recipe text: drop `-Werror` everywhere,
then split into lines and run the three per-line passes in the script's
order, and re-join. -/
def fix_makefile_content (pfx c : Content) : Content :=
  joinNl ((((splitNl (pyReplace werrorFlag [] c)).map (cfStep pfx)).map (libsStep pfx)).map xzStep)

/-- The macro-shim rule on a file's content. -/
def fix_fnm_content (c : Content) : Content :=
  if fnmHead <+: c then c else fnmGuard ++ c

/-- Index of the last line whose stripped form starts with `#include`. -/
def lastIncludeIdx : List Content → Option Nat
  | [] => none
  | l :: ls =>
    match lastIncludeIdx ls with
    | some k => some (k + 1)
    | none => if includeKw <+: l.dropWhile isPySpace then some 0 else none

/-- `fix_error_header`'s second half: insert the definition block after the
last include of `unsquashfs.c`, unless the definition is already present or
there is no include line. -/
def insert_verbose_def (c : Content) : Content :=
  if defLine <:+: c then c
  else
    match lastIncludeIdx (splitNl c) with
    | none => c
    | some k =>
      joinNl ((splitNl c).take (k + 1) ++ [[], cmtLine, defLine, []] ++ (splitNl c).drop (k + 1))

/-- The build workspace's five patched files; `none` means the file is absent. -/
structure SourceTree where
  errorH : Option Content
  unsquashfsC : Option Content
  xzWrapperC : Option Content
  xzWrapperH : Option Content
  makefile : Option Content
deriving DecidableEq

def fix_error_header (t : SourceTree) : SourceTree :=
  let t1 : SourceTree :=
    match t.errorH with
    | none => t
    | some c => { t with errorH := some (subVerbose c) }
  match t1.unsquashfsC with
  | none => t1
  | some c => { t1 with unsquashfsC := some (insert_verbose_def c) }

def fix_fnm_extmatch (t : SourceTree) : SourceTree :=
  match t.unsquashfsC with
  | none => t
  | some c => { t with unsquashfsC := some (fix_fnm_content c) }

def disable_xz_wrapper (t : SourceTree) : SourceTree :=
  let t1 : SourceTree :=
    match t.xzWrapperC with
    | none => t
    | some _ => { t with xzWrapperC := some xzMarker }
  match t1.xzWrapperH with
  | none => t1
  | some _ => { t1 with xzWrapperH := some xzMarker }

def fix_makefile (pfx : Content) (t : SourceTree) : SourceTree :=
  match t.makefile with
  | none => t
  | some c => { t with makefile := some (fix_makefile_content pfx c) }

/-- The full rule sequence, in the script's order. -/
def apply_universal_fixes (pfx : Content) (t : SourceTree) : SourceTree :=
  fix_makefile pfx (disable_xz_wrapper (fix_fnm_extmatch (fix_error_header t)))

/-! ### Idempotence of the rules -/

theorem fix_fnm_content_idem (c : Content) :
    fix_fnm_content (fix_fnm_content c) = fix_fnm_content c := by
  by_cases h : fnmHead <+: c
  · have e : fix_fnm_content c = c := by rw [fix_fnm_content, if_pos h]
    rw [e]
    exact e
  · have e : fix_fnm_content c = fnmGuard ++ c := by rw [fix_fnm_content, if_neg h]
    rw [e, fix_fnm_content,
      if_pos ((show fnmHead <+: fnmGuard by decide).trans (List.prefix_append fnmGuard c))]

theorem insert_verbose_def_present {c : Content} (h : defLine <:+: c) :
    insert_verbose_def c = c := by
  rw [insert_verbose_def, if_pos h]

theorem insert_verbose_def_no_include {c : Content} (h1 : ¬ defLine <:+: c)
    (h2 : lastIncludeIdx (splitNl c) = none) : insert_verbose_def c = c := by
  rw [insert_verbose_def, if_neg h1, h2]

theorem insert_verbose_def_cases (c : Content) :
    defLine <:+: insert_verbose_def c ∨
      (insert_verbose_def c = c ∧ ¬ defLine <:+: c ∧ lastIncludeIdx (splitNl c) = none) := by
  by_cases h1 : defLine <:+: c
  · left
    rw [insert_verbose_def, if_pos h1]
    exact h1
  · rw [insert_verbose_def, if_neg h1]
    cases h2 : lastIncludeIdx (splitNl c) with
    | none => exact Or.inr ⟨rfl, h1, rfl⟩
    | some k =>
      left
      show defLine <:+: joinNl
        ((splitNl c).take (k + 1) ++ [[], cmtLine, defLine, []] ++ (splitNl c).drop (k + 1))
      apply infix_joinNl_of_mem
      simp

theorem insert_verbose_def_idem (c : Content) :
    insert_verbose_def (insert_verbose_def c) = insert_verbose_def c := by
  rcases insert_verbose_def_cases c with h | ⟨he, _, _⟩
  · exact insert_verbose_def_present h
  · rw [he]
    exact he

theorem fnmGuard_append_eq (c : Content) :
    fnmGuard ++ c = fnmHead ++ '\n' :: (fnmL2 ++ '\n' :: (fnmL3 ++ '\n' :: '\n' :: c)) := rfl

theorem splitNl_fnmGuard_append (c : Content) :
    splitNl (fnmGuard ++ c) = fnmHead :: fnmL2 :: fnmL3 :: [] :: splitNl c := by
  rw [fnmGuard_append_eq, splitNl_append_nl _ _ (by decide),
    splitNl_append_nl _ _ (by decide), splitNl_append_nl _ _ (by decide)]
  rfl

theorem not_defLine_infix_fnmGuard_append {c : Content} (h : ¬ defLine <:+: c) :
    ¬ defLine <:+: fnmGuard ++ c := by
  rw [show fnmGuard ++ c
      = ("#ifndef FNM_EXTMATCH\n#define FNM_EXTMATCH 0\n#endif\n" : String).data ++ '\n' :: c
    from rfl]
  exact not_infix_append_sep (by decide) (by decide) (by decide) h

theorem lastIncludeIdx_cons_none {ls : List Content} (l : Content)
    (h : lastIncludeIdx ls = none) (hl : ¬ includeKw <+: l.dropWhile isPySpace) :
    lastIncludeIdx (l :: ls) = none := by
  have e : lastIncludeIdx (l :: ls)
      = match lastIncludeIdx ls with
        | some k => some (k + 1)
        | none => if includeKw <+: l.dropWhile isPySpace then some 0 else none := rfl
  rw [e, h]
  show (if includeKw <+: l.dropWhile isPySpace then some 0 else none : Option Nat) = none
  rw [if_neg hl]

theorem insert_after_fnm (c : Content) :
    insert_verbose_def (fix_fnm_content (insert_verbose_def c))
      = fix_fnm_content (insert_verbose_def c) := by
  rcases insert_verbose_def_cases c with h | ⟨he, h1, h2⟩
  · apply insert_verbose_def_present
    rw [fix_fnm_content]
    split
    · exact h
    · exact h.trans (List.suffix_append fnmGuard _).isInfix
  · rw [he, fix_fnm_content]
    by_cases hh : fnmHead <+: c
    · rw [if_pos hh]
      exact insert_verbose_def_no_include h1 h2
    · rw [if_neg hh]
      apply insert_verbose_def_no_include (not_defLine_infix_fnmGuard_append h1)
      rw [splitNl_fnmGuard_append]
      exact lastIncludeIdx_cons_none fnmHead
        (lastIncludeIdx_cons_none fnmL2
          (lastIncludeIdx_cons_none fnmL3
            (lastIncludeIdx_cons_none [] h2 (by decide)) (by decide)) (by decide)) (by decide)

/-- The condition under which a second `fix_makefile` pass changes nothing:
its first output carries no further `-Werror` or `-DXZ_SUPPORT` occurrence
(deleting occurrences can splice new ones out of adversarial text) and every
line it would re-trigger on is already in its replaced form.  Any recipe
whose flags are whitespace-delimited tokens satisfies it. -/
def MkCond (pfx c : Content) : Prop :=
  ¬ werrorFlag <:+: fix_makefile_content pfx c ∧
    ¬ dxzFlag <:+: fix_makefile_content pfx c ∧
    ∀ l ∈ splitNl (fix_makefile_content pfx c),
      (cflagsKw <+: l → lzmaDir <:+: l → l = cflagsLine pfx) ∧
        (libsKw <+: l → llzmaFlag <:+: l → l = libsLine pfx)

instance (pfx c : Content) : Decidable (MkCond pfx c) :=
  decidable_of_iff (¬ werrorFlag <:+: fix_makefile_content pfx c ∧
    ¬ dxzFlag <:+: fix_makefile_content pfx c ∧
    ∀ l ∈ splitNl (fix_makefile_content pfx c),
      (cflagsKw <+: l → lzmaDir <:+: l → l = cflagsLine pfx) ∧
        (libsKw <+: l → llzmaFlag <:+: l → l = libsLine pfx)) (by rw [MkCond])

theorem cfStep_of_fixed {pfx l : Content}
    (h : cflagsKw <+: l → lzmaDir <:+: l → l = cflagsLine pfx) : cfStep pfx l = l := by
  rw [cfStep]
  by_cases hc : cflagsKw <+: l ∧ lzmaDir <:+: l
  · rw [if_pos hc, h hc.1 hc.2]
  · rw [if_neg hc]

theorem libsStep_of_fixed {pfx l : Content}
    (h : libsKw <+: l → llzmaFlag <:+: l → l = libsLine pfx) : libsStep pfx l = l := by
  rw [libsStep]
  by_cases hc : libsKw <+: l ∧ llzmaFlag <:+: l
  · rw [if_pos hc, h hc.1 hc.2]
  · rw [if_neg hc]

theorem xzStep_skip {l : Content} (h : ¬ dxzFlag <:+: l) : xzStep l = l := by
  rw [xzStep, if_neg h]

theorem map_id_of_forall {α : Type} {f : α → α} {l : List α}
    (h : ∀ a ∈ l, f a = a) : l.map f = l := by
  rw [List.map_congr_left (g := id) h, List.map_id]

theorem fix_makefile_content_idem (pfx c : Content) (h : MkCond pfx c) :
    fix_makefile_content pfx (fix_makefile_content pfx c) = fix_makefile_content pfx c := by
  obtain ⟨h1, h2, h3⟩ := h
  have e1 : pyReplace werrorFlag [] (fix_makefile_content pfx c)
      = fix_makefile_content pfx c := pyReplace_no_occurrence (by decide) h1
  have e2 : (splitNl (fix_makefile_content pfx c)).map (cfStep pfx)
      = splitNl (fix_makefile_content pfx c) :=
    map_id_of_forall (fun l hl => cfStep_of_fixed ((h3 l hl).1))
  have e3 : (splitNl (fix_makefile_content pfx c)).map (libsStep pfx)
      = splitNl (fix_makefile_content pfx c) :=
    map_id_of_forall (fun l hl => libsStep_of_fixed ((h3 l hl).2))
  have e4 : (splitNl (fix_makefile_content pfx c)).map xzStep
      = splitNl (fix_makefile_content pfx c) := by
    apply map_id_of_forall
    intro l hl
    have hno : ¬ dxzFlag <:+: l := fun hi => h2 (hi.trans
      (by rw [← joinNl_splitNl (fix_makefile_content pfx c)]
          exact infix_joinNl_of_mem hl))
    exact xzStep_skip hno
  show joinNl ((((splitNl (pyReplace werrorFlag [] (fix_makefile_content pfx c))).map
      (cfStep pfx)).map (libsStep pfx)).map xzStep) = fix_makefile_content pfx c
  rw [e1, e2, e3, e4, joinNl_splitNl]

theorem apply_universal_fixes_eq (pfx : Content) (t : SourceTree) :
    apply_universal_fixes pfx t =
      { errorH := t.errorH.map subVerbose,
        unsquashfsC := t.unsquashfsC.map (fun c => fix_fnm_content (insert_verbose_def c)),
        xzWrapperC := t.xzWrapperC.map (fun _ => xzMarker),
        xzWrapperH := t.xzWrapperH.map (fun _ => xzMarker),
        makefile := t.makefile.map (fix_makefile_content pfx) } := by
  obtain ⟨e, u, xc, xh, m⟩ := t
  cases e <;> cases u <;> cases xc <;> cases xh <;> cases m <;> rfl

theorem disable_xz_wrapper_idem (t : SourceTree) :
    disable_xz_wrapper (disable_xz_wrapper t) = disable_xz_wrapper t := by
  obtain ⟨e, u, xc, xh, m⟩ := t
  cases xc <;> cases xh <;> rfl

theorem apply_universal_fixes_idem (pfx : Content) (t : SourceTree)
    (hmk : ∀ m, t.makefile = some m → MkCond pfx m) :
    apply_universal_fixes pfx (apply_universal_fixes pfx t) = apply_universal_fixes pfx t := by
  rw [apply_universal_fixes_eq, apply_universal_fixes_eq]
  obtain ⟨e, u, xc, xh, m⟩ := t
  simp only [SourceTree.mk.injEq]
  refine ⟨?_, ?_, ?_, ?_, ?_⟩
  · cases e with
    | none => rfl
    | some c => exact congrArg some (subVerbose_idem c)
  · cases u with
    | none => rfl
    | some c =>
      refine congrArg some ?_
      show fix_fnm_content (insert_verbose_def (fix_fnm_content (insert_verbose_def c)))
        = fix_fnm_content (insert_verbose_def c)
      rw [insert_after_fnm c]
      exact fix_fnm_content_idem (insert_verbose_def c)
  · cases xc <;> rfl
  · cases xh <;> rfl
  · cases m with
    | none => rfl
    | some mc => exact congrArg some (fix_makefile_content_idem pfx mc (hmk mc rfl))

/-! ### The recipe rewrite, line by line -/

/-- The composite per-line effect of `fix_makefile`: the `-Werror` removal
(which the script performs on the whole text, but which distributes over
lines) followed by the three per-line passes. -/
def lineXform (pfx l : Content) : Content :=
  xzStep (libsStep pfx (cfStep pfx (pyReplace werrorFlag [] l)))

theorem mem_pyReplace_del {p : Content} (hp : p ≠ []) :
    ∀ (s : Content) {c : Char}, c ∈ pyReplace p [] s → c ∈ s := by
  have hp1 : 1 ≤ p.length := by
    cases p with
    | nil => exact absurd rfl hp
    | cons a as => simp
  suffices H : ∀ n (s : Content), s.length ≤ n → ∀ {c : Char}, c ∈ pyReplace p [] s → c ∈ s by
    intro s c h
    exact H s.length s le_rfl h
  intro n
  induction n with
  | zero =>
    intro s hs c h
    rw [List.length_eq_zero.1 (Nat.le_zero.1 hs)] at h ⊢
    rw [pyReplace_nil] at h
    exact h
  | succ n ih =>
    intro s hs c h
    cases s with
    | nil =>
      rw [pyReplace_nil] at h
      exact h
    | cons a cs =>
      rw [pyReplace_cons [] hp] at h
      by_cases hb : p <+: a :: cs
      · rw [if_pos hb, List.nil_append] at h
        have hlen : (List.drop p.length (a :: cs)).length ≤ n := by
          rw [List.length_drop]
          simp only [List.length_cons] at hs ⊢
          omega
        exact List.mem_of_mem_drop (ih _ hlen h)
      · rw [if_neg hb] at h
        rcases List.mem_cons.1 h with h1 | h2
        · exact h1 ▸ List.mem_cons_self a cs
        · exact List.mem_cons_of_mem a
            (ih cs (by simp only [List.length_cons] at hs; omega) h2)

/-- The whole-text rewrite is the per-line composite applied to every line. -/
theorem fix_makefile_content_eq_map (pfx c : Content) :
    fix_makefile_content pfx c = joinNl ((splitNl c).map (lineXform pfx)) := by
  have hrep : pyReplace werrorFlag [] c
      = joinNl ((splitNl c).map (pyReplace werrorFlag [])) := by
    conv_lhs => rw [← joinNl_splitNl c]
    exact pyReplace_joinNl [] (by decide) (by decide) (splitNl c)
  have hsplit : splitNl (pyReplace werrorFlag [] c)
      = (splitNl c).map (pyReplace werrorFlag []) := by
    rw [hrep]
    apply splitNl_joinNl
    · intro hmap
      exact splitNl_ne_nil c (List.map_eq_nil_iff.1 hmap)
    · intro l hl hnl
      rcases List.mem_map.1 hl with ⟨l0, hl0, he⟩
      subst he
      exact nl_not_mem_of_mem_splitNl hl0 (mem_pyReplace_del (by decide) l0 hnl)
  rw [fix_makefile_content, hsplit, List.map_map, List.map_map, List.map_map]
  apply congrArg joinNl
  apply List.map_congr_left
  intro l _
  rfl

theorem infix_joinSp_of_mem {f : Content} {flags : List Content}
    (h : f ∈ flags) : f <:+: joinSp flags := by
  induction flags with
  | nil => simp at h
  | cons a fs ih =>
    rcases List.mem_cons.1 h with h1 | h2
    · subst h1
      cases fs with
      | nil => exact List.infix_refl f
      | cons b fs2 =>
        rw [joinSp_cons _ _ (by simp)]
        exact (List.prefix_append f (' ' :: joinSp (b :: fs2))).isInfix
    · cases fs with
      | nil => simp at h2
      | cons b fs2 =>
        rw [joinSp_cons _ _ (by simp)]
        exact (ih h2).trans
          (((List.suffix_cons ' ' (joinSp (b :: fs2))).trans
            (List.suffix_append a (' ' :: joinSp (b :: fs2)))).isInfix)

theorem infix_joinSp_exists {q : Content} (hq : q ≠ []) (hsp : ' ' ∉ q) :
    ∀ (flags : List Content), q <:+: joinSp flags → ∃ f ∈ flags, q <:+: f := by
  intro flags
  induction flags with
  | nil =>
    intro h
    rw [show joinSp [] = [] from rfl] at h
    exact absurd (List.eq_nil_of_infix_nil h) hq
  | cons f fs ih =>
    intro h
    cases fs with
    | nil => exact ⟨f, List.mem_cons_self f [], h⟩
    | cons g gs =>
      rw [joinSp_cons _ _ (by simp)] at h
      rcases infix_append_sep hq hsp h with h1 | h2
      · exact ⟨f, List.mem_cons_self f _, h1⟩
      · rcases ih h2 with ⟨f2, hf2, hinf⟩
        exact ⟨f2, List.mem_cons_of_mem f hf2, hinf⟩

/-- An unrelated line, one that carries none of the four trigger substrings,
is left byte-identical by the recipe rewrite. -/
theorem lineXform_id (pfx l : Content) (h1 : ¬ werrorFlag <:+: l)
    (h2 : ¬ dxzFlag <:+: l) (h3 : ¬ (cflagsKw <+: l ∧ lzmaDir <:+: l))
    (h4 : ¬ (libsKw <+: l ∧ llzmaFlag <:+: l)) : lineXform pfx l = l := by
  rw [lineXform, pyReplace_no_occurrence (by decide) h1, cfStep, if_neg h3,
    libsStep, if_neg h4, xzStep_skip h2]

theorem wsFree_del {p : Content} {flags : List Content} (h : ∀ f ∈ flags, wsFree f) :
    ∀ f ∈ flags.map (fun f => if f = p then [] else f), wsFree f := by
  intro f hf
  rcases List.mem_map.1 hf with ⟨g, hg, he⟩
  subst he
  by_cases hgp : g = p
  · rw [if_pos hgp]
    intro c hc
    simp at hc
  · rw [if_neg hgp]
    exact h g hg

theorem not_infix_joinSp_del {q p : Content} (hq : q ≠ []) (hsp : ' ' ∉ q)
    (flags : List Content) (h : ¬ q <:+: joinSp flags) :
    ¬ q <:+: joinSp (flags.map (fun f => if f = p then [] else f)) := by
  intro hi
  rcases infix_joinSp_exists hq hsp _ hi with ⟨f2, hf2, hinf⟩
  rcases List.mem_map.1 hf2 with ⟨f, hf, he⟩
  by_cases hfp : f = p
  · rw [← he, if_pos hfp] at hinf
    exact hq (List.eq_nil_of_infix_nil hinf)
  · rw [← he, if_neg hfp] at hinf
    exact h (hinf.trans (infix_joinSp_of_mem hf))

theorem infix_joinSp_del_kept {q p : Content} (hq : q ≠ []) (hsp : ' ' ∉ q)
    (hqp : ¬ q <:+: p) (flags : List Content) (h : q <:+: joinSp flags) :
    q <:+: joinSp (flags.map (fun f => if f = p then [] else f)) := by
  rcases infix_joinSp_exists hq hsp _ h with ⟨f, hf, hinf⟩
  have hfp : f ≠ p := fun he => hqp (he ▸ hinf)
  exact hinf.trans (infix_joinSp_of_mem (List.mem_map.2 ⟨f, hf, by rw [if_neg hfp]⟩))

theorem del_del_eq (f : Content) :
    (if (if f = werrorFlag then [] else f) = dxzFlag then ([] : Content)
      else if f = werrorFlag then [] else f)
      = if f = werrorFlag ∨ f = dxzFlag then [] else f := by
  by_cases h1 : f = werrorFlag
  · rw [if_pos h1, if_pos (Or.inl h1), if_neg (by decide : ¬ ([] : Content) = dxzFlag)]
  · rw [if_neg h1]
    by_cases h2 : f = dxzFlag
    · rw [if_pos h2, if_pos (Or.inr h2)]
    · rw [if_neg h2, if_neg (fun h => h.elim h1 h2)]

/-- A line made of whitespace-delimited flags none of which smuggles a
trigger substring inside a larger token, and which triggers neither the
`CFLAGS` nor the `LIBS` replacement: the rewrite deletes exactly the
`-Werror` and `-DXZ_SUPPORT` flags (leaving their separators) and keeps
every other flag verbatim, in order. -/
theorem lineXform_flags (pfx : Content) (flags : List Content)
    (hws : ∀ f ∈ flags, wsFree f)
    (hW : ∀ f ∈ flags, werrorFlag <:+: f → f = werrorFlag)
    (hD : ∀ f ∈ flags, dxzFlag <:+: f → f = dxzFlag)
    (hLZ : ¬ lzmaDir <:+: joinSp flags)
    (hLL : ¬ llzmaFlag <:+: joinSp flags) :
    lineXform pfx (joinSp flags)
      = joinSp (flags.map (fun f => if f = werrorFlag ∨ f = dxzFlag then [] else f)) := by
  have hrep : pyReplace werrorFlag [] (joinSp flags)
      = joinSp (flags.map (fun f => if f = werrorFlag then [] else f)) :=
    pyReplace_joinSp (by decide) (by decide) flags
      (fun f hf => ⟨wsFree_of_sp_not_mem (hws f hf), hW f hf⟩)
  have hws1 : ∀ f ∈ flags.map (fun f => if f = werrorFlag then [] else f), wsFree f :=
    wsFree_del hws
  have hLZ1 : ¬ lzmaDir <:+: joinSp (flags.map (fun f => if f = werrorFlag then [] else f)) :=
    not_infix_joinSp_del (by decide) (by decide) flags hLZ
  have hLL1 : ¬ llzmaFlag <:+: joinSp (flags.map (fun f => if f = werrorFlag then [] else f)) :=
    not_infix_joinSp_del (by decide) (by decide) flags hLL
  rw [lineXform, hrep, cfStep, if_neg (fun hc => hLZ1 hc.2), libsStep,
    if_neg (fun hc => hLL1 hc.2)]
  by_cases hDX : dxzFlag <:+: joinSp (flags.map (fun f => if f = werrorFlag then [] else f))
  · rw [xzStep, if_pos hDX]
    have hD1 : ∀ f ∈ flags.map (fun f => if f = werrorFlag then [] else f),
        dxzFlag <:+: f → f = dxzFlag := by
      intro f hf hinf
      rcases List.mem_map.1 hf with ⟨g, hg, he⟩
      subst he
      by_cases hgw : g = werrorFlag
      · rw [if_pos hgw] at hinf
        exact absurd (List.eq_nil_of_infix_nil hinf) (by decide)
      · rw [if_neg hgw] at hinf ⊢
        exact hD g hg hinf
    rw [pyReplace_joinSp (by decide) (by decide) _
      (fun f hf => ⟨wsFree_of_sp_not_mem (hws1 f hf), hD1 f hf⟩)]
    rw [List.map_map]
    exact congrArg joinSp (List.map_congr_left (fun f _ => del_del_eq f))
  · rw [xzStep_skip hDX]
    have e1 : (flags.map (fun f => if f = werrorFlag then [] else f)).map
        (fun f => if f = dxzFlag then [] else f)
        = flags.map (fun f => if f = werrorFlag then [] else f) := by
      apply map_id_of_forall
      intro f hf
      by_cases h2 : f = dxzFlag
      · exact absurd (h2 ▸ infix_joinSp_of_mem hf) hDX
      · rw [if_neg h2]
    have e2 : flags.map (fun f => if f = werrorFlag ∨ f = dxzFlag then [] else f)
        = flags.map (fun f => if f = werrorFlag then [] else f) := by
      rw [← e1, List.map_map]
      exact (List.map_congr_left (fun f _ => del_del_eq f)).symm
    rw [e2]

theorem filter_map_delWX (flags : List Content) :
    (flags.map (fun f => if f = werrorFlag ∨ f = dxzFlag then [] else f)).filter
        (fun t => !t.isEmpty)
      = flags.filter (fun f => decide (¬ f = [] ∧ ¬ f = werrorFlag ∧ ¬ f = dxzFlag)) := by
  induction flags with
  | nil => rfl
  | cons f fs ih =>
    simp only [List.map_cons, List.filter_cons, ih]
    by_cases h1 : f = werrorFlag ∨ f = dxzFlag
    · rw [if_pos h1]
      rw [if_neg (by decide : ¬ ((!([] : Content).isEmpty) = true))]
      rw [if_neg (by
        simp only [decide_eq_true_eq]
        intro hcontra
        exact h1.elim hcontra.2.1 hcontra.2.2)]
    · rw [if_neg h1]
      push_neg at h1
      by_cases h2 : f = []
      · rw [if_neg (by simp [h2]), if_neg (by
          simp only [decide_eq_true_eq]
          intro hcontra
          exact hcontra.1 h2)]
      · rw [if_pos (by simp [List.isEmpty_iff, h2]), if_pos (by
          simp only [decide_eq_true_eq]
          exact ⟨h2, h1.1, h1.2⟩)]

/-- Token reading of `lineXform_flags`: the surviving tokens are exactly the
original flags other than `-Werror` and `-DXZ_SUPPORT`, in order. -/
theorem tokensOf_lineXform_flags (pfx : Content) (flags : List Content)
    (hws : ∀ f ∈ flags, wsFree f)
    (hW : ∀ f ∈ flags, werrorFlag <:+: f → f = werrorFlag)
    (hD : ∀ f ∈ flags, dxzFlag <:+: f → f = dxzFlag)
    (hLZ : ¬ lzmaDir <:+: joinSp flags)
    (hLL : ¬ llzmaFlag <:+: joinSp flags) :
    tokensOf (lineXform pfx (joinSp flags))
      = flags.filter (fun f => decide (¬ f = [] ∧ ¬ f = werrorFlag ∧ ¬ f = dxzFlag)) := by
  rw [lineXform_flags pfx flags hws hW hD hLZ hLL]
  rw [tokensOf_joinSp _ (by
    intro f hf
    rcases List.mem_map.1 hf with ⟨g, hg, he⟩
    subst he
    by_cases hgp : g = werrorFlag ∨ g = dxzFlag
    · rw [if_pos hgp]
      intro c hc
      simp at hc
    · rw [if_neg hgp]
      exact hws g hg)]
  exact filter_map_delWX flags

theorem not_libsKw_prefix_cflagsLine (pfx : Content) : ¬ libsKw <+: cflagsLine pfx :=
  fun h => absurd (List.cons_prefix_cons.1 h).1 (by decide)

theorem not_cflagsKw_prefix_libsLine (pfx : Content) : ¬ cflagsKw <+: libsLine pfx :=
  fun h => absurd (List.cons_prefix_cons.1 h).1 (by decide)

/-- A `CFLAGS` line referencing `./LZMA`, given as whitespace-delimited
flags, is replaced wholesale by the profile's `cflagsLine` (provided the
profile root itself does not contain `-DXZ_SUPPORT`). -/
theorem lineXform_cflags (pfx f0 : Content) (rest : List Content)
    (hws : ∀ f ∈ f0 :: rest, wsFree f)
    (hW : ∀ f ∈ f0 :: rest, werrorFlag <:+: f → f = werrorFlag)
    (hcf : cflagsKw <+: f0)
    (hlz : lzmaDir <:+: joinSp (f0 :: rest))
    (hdp : ¬ dxzFlag <:+: cflagsLine pfx) :
    lineXform pfx (joinSp (f0 :: rest)) = cflagsLine pfx := by
  have hf0W : f0 ≠ werrorFlag := fun he => absurd (he ▸ hcf) (by decide)
  have hrep : pyReplace werrorFlag [] (joinSp (f0 :: rest))
      = joinSp (f0 :: rest.map (fun f => if f = werrorFlag then [] else f)) := by
    rw [pyReplace_joinSp (by decide) (by decide) _
      (fun f hf => ⟨wsFree_of_sp_not_mem (hws f hf), hW f hf⟩)]
    rw [List.map_cons, if_neg hf0W]
  have hpre : cflagsKw <+: joinSp (f0 :: rest.map (fun f => if f = werrorFlag then [] else f)) := by
    cases hr : rest.map (fun f => if f = werrorFlag then [] else f) with
    | nil => exact hcf
    | cons g gs =>
      rw [joinSp_cons _ _ (by simp)]
      exact hcf.trans (List.prefix_append f0 _)
  have hlz1 : lzmaDir <:+: joinSp (f0 :: rest.map (fun f => if f = werrorFlag then [] else f)) := by
    have h2 := infix_joinSp_del_kept (p := werrorFlag) (by decide) (by decide)
      (by decide) (f0 :: rest) hlz
    rwa [List.map_cons, if_neg hf0W] at h2
  rw [lineXform, hrep, cfStep, if_pos ⟨hpre, hlz1⟩, libsStep,
    if_neg (fun hc => not_libsKw_prefix_cflagsLine pfx hc.1), xzStep_skip hdp]

/-- A `LIBS += …` line referencing `-llzma`, given as whitespace-delimited
flags, is replaced wholesale by the profile's `libsLine` (provided the
profile root itself does not contain `-DXZ_SUPPORT`). -/
theorem lineXform_libs (pfx f1 : Content) (rest : List Content)
    (hws : ∀ f ∈ ("LIBS" : String).data :: f1 :: rest, wsFree f)
    (hW : ∀ f ∈ ("LIBS" : String).data :: f1 :: rest, werrorFlag <:+: f → f = werrorFlag)
    (hpl : ("+=" : String).data <+: f1)
    (hll : llzmaFlag <:+: joinSp (("LIBS" : String).data :: f1 :: rest))
    (hdp : ¬ dxzFlag <:+: libsLine pfx) :
    lineXform pfx (joinSp (("LIBS" : String).data :: f1 :: rest)) = libsLine pfx := by
  have hf1W : f1 ≠ werrorFlag := fun he => absurd (he ▸ hpl) (by decide)
  have hrep : pyReplace werrorFlag [] (joinSp (("LIBS" : String).data :: f1 :: rest))
      = joinSp (("LIBS" : String).data :: f1 ::
          rest.map (fun f => if f = werrorFlag then [] else f)) := by
    rw [pyReplace_joinSp (by decide) (by decide) _
      (fun f hf => ⟨wsFree_of_sp_not_mem (hws f hf), hW f hf⟩)]
    rw [List.map_cons, List.map_cons, if_neg (by decide : ¬ ("LIBS" : String).data = werrorFlag),
      if_neg hf1W]
  have hjs : joinSp (("LIBS" : String).data :: f1 ::
        rest.map (fun f => if f = werrorFlag then [] else f))
      = ("LIBS" : String).data ++ ' ' :: joinSp (f1 ::
          rest.map (fun f => if f = werrorFlag then [] else f)) :=
    joinSp_cons _ _ (by simp)
  have hpre : libsKw <+: joinSp (("LIBS" : String).data :: f1 ::
      rest.map (fun f => if f = werrorFlag then [] else f)) := by
    rw [hjs]
    have h2 : ("+=" : String).data <+: joinSp (f1 ::
        rest.map (fun f => if f = werrorFlag then [] else f)) := by
      cases hr : rest.map (fun f => if f = werrorFlag then [] else f) with
      | nil => exact hpl
      | cons g gs =>
        rw [joinSp_cons _ _ (by simp)]
        exact hpl.trans (List.prefix_append f1 _)
    rw [show libsKw = ("LIBS " : String).data ++ ("+=" : String).data from rfl,
      show ("LIBS" : String).data ++ ' ' :: joinSp (f1 ::
          rest.map (fun f => if f = werrorFlag then [] else f))
        = ("LIBS " : String).data ++ joinSp (f1 ::
          rest.map (fun f => if f = werrorFlag then [] else f)) from rfl]
    exact (List.prefix_append_right_inj _).2 h2
  have hll1 : llzmaFlag <:+: joinSp (("LIBS" : String).data :: f1 ::
      rest.map (fun f => if f = werrorFlag then [] else f)) := by
    have h2 := infix_joinSp_del_kept (p := werrorFlag) (by decide) (by decide)
      (by decide) (("LIBS" : String).data :: f1 :: rest) hll
    rwa [List.map_cons, List.map_cons,
      if_neg (by decide : ¬ ("LIBS" : String).data = werrorFlag), if_neg hf1W] at h2
  have hnocf : ¬ cflagsKw <+: joinSp (("LIBS" : String).data :: f1 ::
      rest.map (fun f => if f = werrorFlag then [] else f)) := by
    rw [hjs]
    intro h2
    exact absurd (List.cons_prefix_cons.1 h2).1 (by decide)
  rw [lineXform, hrep, cfStep, if_neg (fun hc => hnocf hc.1), libsStep,
    if_pos ⟨hpre, hll1⟩, xzStep_skip hdp]

/-! ### Environment detection, command execution, and the pipeline -/

/-- What `detect_env` observes on the host. -/
structure HostEnv where
  termuxDirExists : Bool
  prefixEnvVar : Option Content
  hasApt : Bool
  hasPacman : Bool
  hasDnf : Bool
  hasApk : Bool
  osName : Content
deriving DecidableEq

/-- The profile `detect_env` returns; `pfx` is the install-root entry of the
script's `info` dictionary. -/
structure EnvInfo where
  os : Content
  is_termux : Bool
  pfx : Content
  pkg_mgr : Option Content
  packages : List Content
deriving DecidableEq

def detect_env (h : HostEnv) : EnvInfo :=
  if h.termuxDirExists = true ∨ ("com.termux" : String).data <:+: h.prefixEnvVar.getD [] then
    { os := h.osName, is_termux := true,
      pfx := h.prefixEnvVar.getD ("/data/data/com.termux/files/usr" : String).data,
      pkg_mgr := some (("pkg" : String).data),
      packages := [("git" : String).data, ("patch" : String).data, ("make" : String).data,
        ("clang" : String).data, ("zlib" : String).data, ("liblzma" : String).data,
        ("xz-utils" : String).data, ("lzo" : String).data, ("lzo2" : String).data,
        ("binutils" : String).data, ("wget" : String).data] }
  else if h.hasApt = true then
    { os := h.osName, is_termux := false, pfx := ("/usr" : String).data,
      pkg_mgr := some (("apt" : String).data),
      packages := [("git" : String).data, ("patch" : String).data, ("make" : String).data,
        ("gcc" : String).data, ("g++" : String).data, ("zlib1g-dev" : String).data,
        ("liblzma-dev" : String).data, ("liblzo2-dev" : String).data,
        ("binutils" : String).data, ("wget" : String).data] }
  else if h.hasPacman = true then
    { os := h.osName, is_termux := false, pfx := ("/usr" : String).data,
      pkg_mgr := some (("pacman" : String).data),
      packages := [("git" : String).data, ("patch" : String).data, ("make" : String).data,
        ("gcc" : String).data, ("zlib" : String).data, ("xz" : String).data,
        ("lzo" : String).data, ("binutils" : String).data, ("wget" : String).data] }
  else if h.hasDnf = true then
    { os := h.osName, is_termux := false, pfx := ("/usr" : String).data,
      pkg_mgr := some (("dnf" : String).data),
      packages := [("git" : String).data, ("patch" : String).data, ("make" : String).data,
        ("gcc" : String).data, ("gcc-c++" : String).data, ("zlib-devel" : String).data,
        ("xz-devel" : String).data, ("lzo-devel" : String).data,
        ("binutils" : String).data, ("wget" : String).data] }
  else if h.hasApk = true then
    { os := h.osName, is_termux := false, pfx := ("/usr" : String).data,
      pkg_mgr := some (("apk" : String).data),
      packages := [("git" : String).data, ("patch" : String).data, ("make" : String).data,
        ("gcc" : String).data, ("g++" : String).data, ("zlib-dev" : String).data,
        ("xz-dev" : String).data, ("lzo-dev" : String).data,
        ("binutils" : String).data, ("wget" : String).data] }
  else
    { os := h.osName, is_termux := false, pfx := ("/usr/local" : String).data,
      pkg_mgr := none, packages := [] }

inductive PyExc where
  | calledProcessError
  | fileNotFoundError
  | keyboardInterrupt
  | other
deriving DecidableEq

structure CompletedProcess where
  returncode : Int
deriving DecidableEq

/-- `subprocess.run(cmd, shell=True, check=check, …)`: raises
`CalledProcessError` exactly when `check` holds and the exit status is
non-zero. -/
def subprocessRun (exitCode : Int) (check : Bool) : Except PyExc CompletedProcess :=
  if check = true ∧ ¬ exitCode = 0 then .error .calledProcessError
  else .ok { returncode := exitCode }

/-- The script's command wrapper (`run_cmd` in the source): a
`CalledProcessError` is caught and turned into `None`; nothing else is
raised by the wrapper itself. -/
def runCmd (exitCode : Int) (check : Bool) : Except PyExc (Option CompletedProcess) :=
  match subprocessRun exitCode check with
  | .ok r => .ok (some r)
  | .error .calledProcessError => .ok none
  | .error e => .error e

theorem runCmd_eq (exitCode : Int) (check : Bool) :
    runCmd exitCode check
      = .ok (if check = true ∧ ¬ exitCode = 0 then none
        else some { returncode := exitCode }) := by
  rw [runCmd, subprocessRun]
  by_cases h : check = true ∧ ¬ exitCode = 0
  · rw [if_pos h, if_pos h]
  · rw [if_neg h, if_neg h]

/-- The externally observable facts one run can encounter. -/
structure World where
  gitExit : Int
  wgetExit : Int
  tarExit : Int
  squashfsDirExists : Bool
  makeExit : Int
  artifactExists : Bool
deriving DecidableEq

/-- `setup_source`: the clone, the download and the extraction are issued
through the command wrapper and their results ignored. -/
def setup_source (w : World) : Except PyExc Unit := do
  let _ ← runCmd w.gitExit true
  let _ ← runCmd w.wgetExit true
  let _ ← runCmd w.tarExit true
  pure ()

/-- `apply_patches` begins with `os.chdir("squashfs4.3")`, which raises
`FileNotFoundError` when the archive was never extracted. -/
def apply_patches_chdir (w : World) : Except PyExc Unit :=
  if w.squashfsDirExists = true then .ok () else .error .fileNotFoundError

/-- `build_and_deploy`'s verdict: `make` through the wrapper with
`check=True`, then `result and result.returncode == 0 and
os.path.exists("sasquatch")`. -/
def build_and_deploy (w : World) : Except PyExc Bool := do
  let r ← runCmd w.makeExit true
  match r with
  | some cp => pure (decide (cp.returncode = 0) && w.artifactExists)
  | none => pure false

/-- The body of `main`'s `try:` block from source setup onward. -/
def pipeline (w : World) : Except PyExc Bool := do
  let _ ← setup_source w
  let _ ← apply_patches_chdir w
  build_and_deploy w

/-- How one run of `main` ends. -/
inductive MainOutcome where
  | completes (w : World)
  | interrupted
  | raised (e : PyExc)
deriving DecidableEq

/-- The process exit code of `main`: 0 on reported success, 1 otherwise,
130 for `KeyboardInterrupt`. -/
def main_exit : MainOutcome → Nat
  | .completes w =>
    match pipeline w with
    | .ok true => 0
    | .ok false => 1
    | .error .keyboardInterrupt => 130
    | .error _ => 1
  | .interrupted => 130
  | .raised .keyboardInterrupt => 130
  | .raised _ => 1

/-- `fix_makefile` as a pipeline step that could raise: the missing recipe
file is only logged and the function returns normally. -/
def fix_makefile_step (pfx : Content) (t : SourceTree) : Except PyExc SourceTree :=
  match t.makefile with
  | none => .ok t
  | some c => .ok { t with makefile := some (fix_makefile_content pfx c) }

/-- `os.cpu_count() or 2`: Python's `or` takes the right operand when the
left is `None` (or a falsy 0). -/
def nprocOf : Option Nat → Nat
  | none => 2
  | some n => if n = 0 then 2 else n

/-- The compiler-override dictionary `build_and_deploy` constructs. -/
def build_env_vars (is_termux : Bool) : List (Content × Content) :=
  if is_termux = true then
    [(("CC" : String).data, ("clang" : String).data),
      (("CXX" : String).data, ("clang++" : String).data)]
  else []

/-- What actually reaches `subprocess.run` for the `make` call. -/
structure MakeInvocation where
  jobs : Nat
  envPassed : Option (List (Content × Content))
deriving DecidableEq

/-- The `make` invocation `build_and_deploy` issues: the wrapper is called
with the command string only, so no `env=` argument reaches
`subprocess.run`; the constructed `build_env` is dead. -/
def make_invocation (is_termux : Bool) (cpuCount : Option Nat) : MakeInvocation :=
  let nproc := nprocOf cpuCount
  let _buildEnv := build_env_vars is_termux
  { jobs := nproc, envPassed := none }

theorem setup_source_ok (w : World) : setup_source w = Except.ok () := by
  rw [setup_source, runCmd_eq, runCmd_eq, runCmd_eq]
  rfl

theorem build_and_deploy_eq (w : World) :
    build_and_deploy w = Except.ok (decide (w.makeExit = 0) && w.artifactExists) := by
  rw [build_and_deploy, runCmd_eq]
  by_cases h : w.makeExit = 0
  · rw [if_neg (fun hc => hc.2 h)]
    rfl
  · rw [if_pos ⟨rfl, h⟩]
    show Except.ok false = Except.ok (decide (w.makeExit = 0) && w.artifactExists)
    rw [decide_eq_false h, Bool.false_and]

theorem pipeline_eq (w : World) :
    pipeline w = if w.squashfsDirExists = true
      then Except.ok (decide (w.makeExit = 0) && w.artifactExists)
      else Except.error PyExc.fileNotFoundError := by
  rw [pipeline, setup_source_ok, apply_patches_chdir]
  by_cases h : w.squashfsDirExists = true
  · rw [if_pos h, if_pos h]
    show build_and_deploy w = _
    exact build_and_deploy_eq w
  · rw [if_neg h, if_neg h]
    rfl

theorem main_exit_completes_eq (w : World) :
    main_exit (.completes w)
      = match pipeline w with
        | .ok true => 0
        | .ok false => 1
        | .error .keyboardInterrupt => 130
        | .error _ => 1 := rfl

theorem main_exit_zero_iff (w : World) (hdir : w.squashfsDirExists = true) :
    main_exit (.completes w) = 0 ↔ (w.makeExit = 0 ∧ w.artifactExists = true) := by
  rw [main_exit_completes_eq, pipeline_eq, if_pos hdir]
  cases hb : (decide (w.makeExit = 0) && w.artifactExists) with
  | true =>
    simp only [Bool.and_eq_true, decide_eq_true_eq] at hb
    simp [hb]
  | false =>
    constructor
    · intro h0
      exact absurd h0 (by decide)
    · rintro ⟨hm, ha⟩
      rw [decide_eq_true hm, ha] at hb
      exact absurd hb (by decide)

theorem main_exit_no_artifact (w : World) (ha : w.artifactExists = false) :
    main_exit (.completes w) = 1 := by
  rw [main_exit_completes_eq, pipeline_eq]
  by_cases h : w.squashfsDirExists = true
  · rw [if_pos h, ha, Bool.and_false]
  · rw [if_neg h]

theorem main_exit_make_failed (w : World) (h : ¬ w.makeExit = 0) :
    main_exit (.completes w) = 1 := by
  rw [main_exit_completes_eq, pipeline_eq]
  by_cases hd : w.squashfsDirExists = true
  · rw [if_pos hd, decide_eq_false h, Bool.false_and]
  · rw [if_neg hd]

theorem main_exit_no_dir (w : World) (h : w.squashfsDirExists = false) :
    main_exit (.completes w) = 1 := by
  rw [main_exit_completes_eq, pipeline_eq, if_neg (by rw [h]; exact Bool.false_ne_true)]

/-! ### The claims -/

/-- C1 counterexample: the recipe rewrite is not idempotent on every
content.  Deleting the one `-Werror` occurrence of `-We-Werrorrror` splices
the remaining text into a new `-Werror`, which only the second run deletes,
so running the full rule sequence twice on this tree is not byte-identical
to running it once. -/
theorem C1_counterexample :
    apply_universal_fixes (("/usr" : String).data)
        (apply_universal_fixes (("/usr" : String).data)
          { errorH := none, unsquashfsC := none, xzWrapperC := none, xzWrapperH := none,
            makefile := some (("-We-Werrorrror" : String).data) })
      ≠ apply_universal_fixes (("/usr" : String).data)
          { errorH := none, unsquashfsC := none, xzWrapperC := none, xzWrapperH := none,
            makefile := some (("-We-Werrorrror" : String).data) } := by
  decide

/-- C1 (amended): the duplicate-symbol substitution, the definition
insertion, the macro shim and the disable-by-overwrite rule are idempotent
on every file content; the recipe rewrite is idempotent whenever its first
output satisfies `MkCond` (no spliced `-Werror` or `-DXZ_SUPPORT` left, and
every line it would re-trigger on already in replaced form — true of
recipes whose flags are whitespace-delimited tokens); under that proviso on
the Makefile, running the full rule sequence a second time produces
byte-identical file contents to running it once. -/
theorem C1_patch_sequence_idempotent :
    (∀ c : Content, subVerbose (subVerbose c) = subVerbose c) ∧
    (∀ c : Content, insert_verbose_def (insert_verbose_def c) = insert_verbose_def c) ∧
    (∀ c : Content, fix_fnm_content (fix_fnm_content c) = fix_fnm_content c) ∧
    (∀ t : SourceTree, disable_xz_wrapper (disable_xz_wrapper t) = disable_xz_wrapper t) ∧
    (∀ pfx c : Content, MkCond pfx c →
      fix_makefile_content pfx (fix_makefile_content pfx c) = fix_makefile_content pfx c) ∧
    (∀ (pfx : Content) (t : SourceTree), (∀ m, t.makefile = some m → MkCond pfx m) →
      apply_universal_fixes pfx (apply_universal_fixes pfx t) = apply_universal_fixes pfx t) :=
  ⟨subVerbose_idem, insert_verbose_def_idem, fix_fnm_content_idem, disable_xz_wrapper_idem,
    fix_makefile_content_idem, apply_universal_fixes_idem⟩

/-- A realistic workspace used to instantiate the amended C1. -/
def sampleMakefile : Content :=
  ("CFLAGS := -O2 -I. -I./LZMA/lzma465/C -Werror\nLIBS += -lz -llzma\nCC=gcc -DXZ_SUPPORT\nall:\n\tgcc" : String).data

def sampleTree : SourceTree :=
  { errorH := some (("int verbose = 0;\n" : String).data),
    unsquashfsC := some (("#include <stdio.h>\nmain" : String).data),
    xzWrapperC := some (("old" : String).data),
    xzWrapperH := some (("old2" : String).data),
    makefile := some sampleMakefile }

set_option maxRecDepth 40000 in
/-- C1 witness: the amended idempotence discharged on a concrete workspace
with a realistic recipe. -/
theorem C1_witness :
    apply_universal_fixes (("/usr" : String).data)
        (apply_universal_fixes (("/usr" : String).data) sampleTree)
      = apply_universal_fixes (("/usr" : String).data) sampleTree :=
  C1_patch_sequence_idempotent.2.2.2.2.2 (("/usr" : String).data) sampleTree
    (fun m hm => by
      have he : sampleMakefile = m := Option.some_inj.1 hm
      exact he ▸ (by decide : MkCond (("/usr" : String).data) sampleMakefile))

/-- C2: the recipe rewrite is the per-line composite `lineXform` applied to
every line (so unrelated lines are untouched, shown by the id case); on a
line of whitespace-delimited flags it deletes exactly the `-Werror` and
`-DXZ_SUPPORT` flags and keeps all other flags, in order; a `CFLAGS` line
referencing `./LZMA` is replaced wholesale by the profile's prefix-relative
`cflagsLine`, and a `LIBS +=` line referencing `-llzma` by `libsLine` with
the prefix-relative library directory and `-llzmalib`. -/
theorem C2_recipe_rewrite :
    (∀ pfx c : Content,
      fix_makefile_content pfx c = joinNl ((splitNl c).map (lineXform pfx))) ∧
    (∀ (pfx : Content) (flags : List Content),
      (∀ f ∈ flags, wsFree f) →
      (∀ f ∈ flags, werrorFlag <:+: f → f = werrorFlag) →
      (∀ f ∈ flags, dxzFlag <:+: f → f = dxzFlag) →
      ¬ lzmaDir <:+: joinSp flags → ¬ llzmaFlag <:+: joinSp flags →
      lineXform pfx (joinSp flags)
          = joinSp (flags.map (fun f => if f = werrorFlag ∨ f = dxzFlag then [] else f)) ∧
        tokensOf (lineXform pfx (joinSp flags))
          = flags.filter (fun f => decide (¬ f = [] ∧ ¬ f = werrorFlag ∧ ¬ f = dxzFlag))) ∧
    (∀ pfx l : Content, ¬ werrorFlag <:+: l → ¬ dxzFlag <:+: l →
      ¬ (cflagsKw <+: l ∧ lzmaDir <:+: l) → ¬ (libsKw <+: l ∧ llzmaFlag <:+: l) →
      lineXform pfx l = l) ∧
    (∀ (pfx f0 : Content) (rest : List Content),
      (∀ f ∈ f0 :: rest, wsFree f) →
      (∀ f ∈ f0 :: rest, werrorFlag <:+: f → f = werrorFlag) →
      cflagsKw <+: f0 → lzmaDir <:+: joinSp (f0 :: rest) →
      ¬ dxzFlag <:+: cflagsLine pfx →
      lineXform pfx (joinSp (f0 :: rest)) = cflagsLine pfx) ∧
    (∀ (pfx f1 : Content) (rest : List Content),
      (∀ f ∈ ("LIBS" : String).data :: f1 :: rest, wsFree f) →
      (∀ f ∈ ("LIBS" : String).data :: f1 :: rest, werrorFlag <:+: f → f = werrorFlag) →
      ("+=" : String).data <+: f1 →
      llzmaFlag <:+: joinSp (("LIBS" : String).data :: f1 :: rest) →
      ¬ dxzFlag <:+: libsLine pfx →
      lineXform pfx (joinSp (("LIBS" : String).data :: f1 :: rest)) = libsLine pfx) :=
  ⟨fix_makefile_content_eq_map,
    fun pfx flags h1 h2 h3 h4 h5 =>
      ⟨lineXform_flags pfx flags h1 h2 h3 h4 h5,
        tokensOf_lineXform_flags pfx flags h1 h2 h3 h4 h5⟩,
    lineXform_id, lineXform_cflags, lineXform_libs⟩

set_option maxRecDepth 40000 in
/-- C2 witness: a `CFLAGS` line is replaced by the profile's line, and on an
ordinary flags line exactly `-Werror` and `-DXZ_SUPPORT` disappear. -/
theorem C2_witness :
    lineXform (("/usr" : String).data)
        (joinSp [("CFLAGS" : String).data, (":=" : String).data,
          ("-I./LZMA/lzma465/C" : String).data, ("-Werror" : String).data])
      = cflagsLine (("/usr" : String).data) ∧
    tokensOf (lineXform (("/usr" : String).data)
        (joinSp [("gcc" : String).data, ("-Wall" : String).data, ("-Werror" : String).data,
          ("-DXZ_SUPPORT" : String).data, ("-O2" : String).data]))
      = [("gcc" : String).data, ("-Wall" : String).data, ("-O2" : String).data] := by
  constructor
  · exact C2_recipe_rewrite.2.2.2.1 (("/usr" : String).data) (("CFLAGS" : String).data)
      [(":=" : String).data, ("-I./LZMA/lzma465/C" : String).data, ("-Werror" : String).data]
      (by decide) (by decide) (by decide) (by decide) (by decide)
  · have h2 := (C2_recipe_rewrite.2.1 (("/usr" : String).data)
      [("gcc" : String).data, ("-Wall" : String).data, ("-Werror" : String).data,
        ("-DXZ_SUPPORT" : String).data, ("-O2" : String).data]
      (by decide) (by decide) (by decide) (by decide) (by decide)).2
    rw [h2]
    decide

/-- C3: the run is reported successful (exit code 0) iff the native build's
exit status is zero and the expected artifact exists; a zero status with a
missing artifact is exit 1, fatal errors exit 1, interruption exits 130. -/
theorem C3_exit_codes :
    (∀ w : World, w.squashfsDirExists = true →
      (main_exit (.completes w) = 0 ↔ (w.makeExit = 0 ∧ w.artifactExists = true))) ∧
    (∀ w : World, w.artifactExists = false → main_exit (.completes w) = 1) ∧
    main_exit .interrupted = 130 ∧
    (∀ e : PyExc, ¬ e = PyExc.keyboardInterrupt → main_exit (.raised e) = 1) := by
  refine ⟨main_exit_zero_iff, main_exit_no_artifact, rfl, fun e he => ?_⟩
  cases e with
  | keyboardInterrupt => exact absurd rfl he
  | calledProcessError => rfl
  | fileNotFoundError => rfl
  | other => rfl

/-- A run in which everything succeeds. -/
def okWorld : World :=
  { gitExit := 0, wgetExit := 0, tarExit := 0, squashfsDirExists := true, makeExit := 0,
    artifactExists := true }

/-- A run whose build exits 0 but leaves no artifact behind. -/
def noArtifactWorld : World :=
  { gitExit := 0, wgetExit := 0, tarExit := 0, squashfsDirExists := true, makeExit := 0,
    artifactExists := false }

/-- C3 witness: a clean build exits 0; a zero-status build with a missing
artifact exits 1. -/
theorem C3_witness :
    main_exit (.completes okWorld) = 0 ∧ main_exit (.completes noArtifactWorld) = 1 :=
  ⟨(C3_exit_codes.1 okWorld rfl).2 ⟨rfl, rfl⟩, C3_exit_codes.2.1 noArtifactWorld rfl⟩

/-- The host with no Termux marker and no resolvable package manager. -/
def unknownHost : HostEnv :=
  { termuxDirExists := false, prefixEnvVar := none, hasApt := false, hasPacman := false,
    hasDnf := false, hasApk := false, osName := ("linux" : String).data }

/-- C4 counterexample: the fall-through profile keeps the dictionary's
initial install root `/usr/local`; the claimed `/usr` is wrong. -/
theorem C4_counterexample :
    (detect_env unknownHost).pkg_mgr = none ∧
    (detect_env unknownHost).packages = [] ∧
    ¬ (detect_env unknownHost).pfx = ("/usr" : String).data ∧
    (detect_env unknownHost).pfx = ("/usr/local" : String).data := by
  decide

/-- C4 (amended): on every host with no Termux marker and no resolvable
package manager, detection returns the unknown profile — no package
manager, an empty required-package list and install root `/usr/local` —
and, being a total function, it never fails. -/
theorem C4_unknown_profile :
    ∀ h : HostEnv, h.termuxDirExists = false →
      ¬ ("com.termux" : String).data <:+: h.prefixEnvVar.getD [] →
      h.hasApt = false → h.hasPacman = false → h.hasDnf = false → h.hasApk = false →
      detect_env h = { os := h.osName, is_termux := false,
                       pfx := ("/usr/local" : String).data, pkg_mgr := none,
                       packages := [] } := by
  intro h h1 h2 h3 h4 h5 h6
  rw [detect_env, if_neg (by simp [h1, h2]), if_neg (by simp [h3]), if_neg (by simp [h4]),
    if_neg (by simp [h5]), if_neg (by simp [h6])]

/-- C4 witness: the amended profile at a concrete empty host. -/
theorem C4_witness :
    detect_env unknownHost = { os := ("linux" : String).data, is_termux := false,
                               pfx := ("/usr/local" : String).data, pkg_mgr := none,
                               packages := [] } :=
  C4_unknown_profile unknownHost rfl (by decide) rfl rfl rfl rfl

/-- C5 counterexample: the rule's precondition is the first-line test
`startswith("#ifndef FNM_EXTMATCH")`, not the full four-line guard.  A file
consisting of that single line does not start with the guard block, yet the
rule leaves it unchanged instead of prepending the guard. -/
theorem C5_counterexample :
    ¬ fnmGuard <+: ("#ifndef FNM_EXTMATCH" : String).data ∧
    fix_fnm_content (("#ifndef FNM_EXTMATCH" : String).data)
      = ("#ifndef FNM_EXTMATCH" : String).data ∧
    ¬ fix_fnm_content (("#ifndef FNM_EXTMATCH" : String).data)
        = fnmGuard ++ ("#ifndef FNM_EXTMATCH" : String).data := by
  decide

/-- C5 (amended): for every file whose content does not start with the
string `#ifndef FNM_EXTMATCH`, the rule's output is the guard block
followed by the original content — its first four lines are exactly the
guard — and the rule applied again to any file is byte-identical. -/
theorem C5_macro_shim :
    (∀ c : Content, ¬ fnmHead <+: c →
      fix_fnm_content c = fnmGuard ++ c ∧
      splitNl (fix_fnm_content c) = fnmHead :: fnmL2 :: fnmL3 :: [] :: splitNl c) ∧
    (∀ c : Content, fix_fnm_content (fix_fnm_content c) = fix_fnm_content c) := by
  constructor
  · intro c h
    have e : fix_fnm_content c = fnmGuard ++ c := by rw [fix_fnm_content, if_neg h]
    exact ⟨e, by rw [e, splitNl_fnmGuard_append]⟩
  · exact fix_fnm_content_idem

/-- C5 witness: the guard is prepended to a concrete unguarded file and its
first four lines are the guard block. -/
theorem C5_witness :
    fix_fnm_content (("int main;" : String).data)
      = fnmGuard ++ ("int main;" : String).data ∧
    splitNl (fix_fnm_content (("int main;" : String).data))
      = fnmHead :: fnmL2 :: fnmL3 :: [] :: splitNl (("int main;" : String).data) :=
  C5_macro_shim.1 (("int main;" : String).data) (by decide)

/-- C6: whatever the codec source/header pair contained before, after the
disable-by-overwrite rule each (existing) file's entire content is exactly
the single marker comment line, and the other files are untouched. -/
theorem C6_disable_by_overwrite :
    ∀ (c h : Content) (e u m : Option Content),
      (disable_xz_wrapper { errorH := e, unsquashfsC := u, xzWrapperC := some c,
                            xzWrapperH := some h, makefile := m })
        = { errorH := e, unsquashfsC := u, xzWrapperC := some xzMarker,
            xzWrapperH := some xzMarker, makefile := m } :=
  fun _ _ _ _ _ => rfl

/-- C7: given a header with a top-level `int verbose …;` definition (with
arbitrary whitespace and optional initializer) and a consumer file lacking
the verbatim definition but containing include lines, the rule rewrites the
header so that it contains `extern int verbose;` and no top-level
definition pattern remains, and inserts the definition block immediately
after the consumer's last include line, so the consumer holds exactly one
occurrence of `int verbose = 0;`; a consumer already holding the verbatim
definition is left unchanged. -/
theorem C7_duplicate_symbol :
    ∀ (hdr con : Content) (k : Nat),
      hasMatch true hdr = true →
      ¬ defLine <:+: con →
      lastIncludeIdx (splitNl con) = some k →
      (externRepl <:+: subVerbose hdr ∧
        hasMatch true (subVerbose hdr) = false ∧
        insert_verbose_def con
          = joinNl ((splitNl con).take (k + 1) ++ [[], cmtLine, defLine, []]
              ++ (splitNl con).drop (k + 1)) ∧
        countOcc defLine (insert_verbose_def con) = 1 ∧
        (∀ c2 : Content, defLine <:+: c2 → insert_verbose_def c2 = c2)) := by
  intro hdr con k hm hni hinc
  have e : insert_verbose_def con
      = joinNl ((splitNl con).take (k + 1) ++ [[], cmtLine, defLine, []]
          ++ (splitNl con).drop (k + 1)) := by
    rw [insert_verbose_def, if_neg hni, hinc]
  refine ⟨externRepl_infix_subAux hdr.length hdr true le_rfl hm,
    hasMatch_subAux hdr.length hdr true le_rfl, e, ?_,
    fun c2 h2 => insert_verbose_def_present h2⟩
  have hlz : ∀ l ∈ splitNl con, countOcc defLine l = 0 := by
    intro l hl
    apply countOcc_eq_zero_of_absent
    intro hi
    apply hni
    exact hi.trans (by
      rw [← joinNl_splitNl con]
      exact infix_joinNl_of_mem hl)
  rw [e, countOcc_joinNl (by decide) (by decide), List.map_append, List.map_append,
    List.sum_append, List.sum_append]
  have hA : (((splitNl con).take (k + 1)).map (countOcc defLine)).sum = 0 := by
    apply List.sum_eq_zero
    intro x hx
    rcases List.mem_map.1 hx with ⟨l, hl, he⟩
    exact he ▸ hlz l (List.mem_of_mem_take hl)
  have hB : (((splitNl con).drop (k + 1)).map (countOcc defLine)).sum = 0 := by
    apply List.sum_eq_zero
    intro x hx
    rcases List.mem_map.1 hx with ⟨l, hl, he⟩
    exact he ▸ hlz l (List.mem_of_mem_drop hl)
  rw [hA, hB]
  decide

/-- C7 witness: the rule discharged on a one-definition header and a
consumer with a single include line. -/
theorem C7_witness :
    externRepl <:+: subVerbose (("int verbose = 0;\n" : String).data) ∧
    insert_verbose_def (("#include <stdio.h>\nmain" : String).data)
      = joinNl ((splitNl (("#include <stdio.h>\nmain" : String).data)).take 1
          ++ [[], cmtLine, defLine, []]
          ++ (splitNl (("#include <stdio.h>\nmain" : String).data)).drop 1) ∧
    countOcc defLine (insert_verbose_def (("#include <stdio.h>\nmain" : String).data)) = 1 := by
  have h := C7_duplicate_symbol (("int verbose = 0;\n" : String).data)
    (("#include <stdio.h>\nmain" : String).data) 0 (by decide) (by decide) (by decide)
  exact ⟨h.1, h.2.2.1, h.2.2.2.1⟩

/-- A workspace whose recipe file is missing. -/
def noRecipeTree : SourceTree :=
  { errorH := none, unsquashfsC := some (("x" : String).data), xzWrapperC := none,
    xzWrapperH := none, makefile := none }

/-- C8 counterexample: with `squashfs-tools/Makefile` missing, the patch
step logs and returns normally with the tree unchanged — nothing propagates
to the top level from it, contrary to the claimed propagation. -/
theorem C8_counterexample :
    fix_makefile_step (("/usr" : String).data) noRecipeTree = Except.ok noRecipeTree := rfl

/-- C8 (amended): a missing recipe file is logged and skipped by
`fix_makefile`, which returns normally and leaves the tree unchanged (per
the patch engine's failure policy); the run still terminates with exit code
1, but only because the subsequent native build fails — `make` exits
non-zero without a recipe file — not by propagation from the patch step. -/
theorem C8_missing_recipe :
    (∀ (pfx : Content) (t : SourceTree), t.makefile = none →
      fix_makefile_step pfx t = Except.ok t) ∧
    (∀ w : World, ¬ w.makeExit = 0 → main_exit (.completes w) = 1) := by
  constructor
  · intro pfx t h
    rw [fix_makefile_step, h]
  · exact main_exit_make_failed

/-- A run in which the native build fails with status 2 (as `make` does
when its Makefile is absent). -/
def makeFailedWorld : World :=
  { gitExit := 0, wgetExit := 0, tarExit := 0, squashfsDirExists := true, makeExit := 2,
    artifactExists := false }

/-- C8 witness: the skip and the eventual failure exit at concrete inputs. -/
theorem C8_witness :
    fix_makefile_step [] noRecipeTree = Except.ok noRecipeTree ∧
    main_exit (.completes makeFailedWorld) = 1 :=
  ⟨C8_missing_recipe.1 [] noRecipeTree rfl, C8_missing_recipe.2 makeFailedWorld (by decide)⟩

/-- C9: the code builds the Termux compiler-override dictionary (`CC` to
clang, `CXX` to clang++) into `build_env`, but the wrapper is called with
the command string only, so `subprocess.run` receives no `env=` argument
and the overrides never reach the native build; the job count is the
detected core count, with 2 when it is undetectable. -/
theorem C9_env_overrides_dropped :
    (∀ cpu : Option Nat, (make_invocation true cpu).envPassed = none) ∧
    build_env_vars true = [(("CC" : String).data, ("clang" : String).data),
      (("CXX" : String).data, ("clang++" : String).data)] ∧
    (make_invocation true none).jobs = 2 ∧
    (∀ n : Nat, (make_invocation true (some (n + 1))).jobs = n + 1) := by
  refine ⟨fun cpu => rfl, rfl, rfl, fun n => ?_⟩
  show nprocOf (some (n + 1)) = n + 1
  rw [nprocOf, if_neg (Nat.succ_ne_zero n)]

/-- C10: a non-zero child exit status never escapes the command wrapper as
an exception — it is caught and turned into `None` — so `setup_source`
always completes even when the download or extraction fails, and the run
only terminates later, at `apply_patches`'s `chdir` into the missing tree,
with exit code 1. -/
theorem C10_runner_never_raises :
    (∀ (e : Int) (check : Bool), ∃ v, runCmd e check = Except.ok v) ∧
    (∀ e : Int, ¬ e = 0 → runCmd e true = Except.ok none) ∧
    (∀ w : World, setup_source w = Except.ok ()) ∧
    (∀ w : World, w.squashfsDirExists = false → main_exit (.completes w) = 1) := by
  refine ⟨fun e check => ⟨_, runCmd_eq e check⟩, fun e he => ?_, setup_source_ok,
    main_exit_no_dir⟩
  rw [runCmd_eq, if_pos ⟨rfl, he⟩]

/-- A run whose download and extraction fail, leaving no source tree. -/
def failedFetchWorld : World :=
  { gitExit := 0, wgetExit := 1, tarExit := 1, squashfsDirExists := false, makeExit := 0,
    artifactExists := false }

/-- C10 witness: a failing command yields `None` rather than an exception,
setup still completes, and the run fails only at the later step. -/
theorem C10_witness :
    runCmd 1 true = Except.ok none ∧
    setup_source failedFetchWorld = Except.ok () ∧
    main_exit (.completes failedFetchWorld) = 1 :=
  ⟨C10_runner_never_raises.2.1 1 (by decide), C10_runner_never_raises.2.2.1 failedFetchWorld,
    C10_runner_never_raises.2.2.2 failedFetchWorld rfl⟩

end Sasquatch
